import Mathlib

/-!
Verification of the quantile-tracking performance counter of
`simple_perf_counter.cpp` (classes `perf_counter_number`,
`perf_counter_rate` and `perf_counter_number_percentile`).

The C++ state is embedded shallowly:

* `_tail` is the source's `std::atomic<int>` write cursor.  The state
  carries the number of completed writes as a natural number; this equals
  the `int` cursor exactly while it stays below `2^31`.  The wrap of the
  32-bit fetch-add past that point — after which the cursor reads negative
  and the store's slot index `idx % MAX_QUEUE_LENGTH` is a negative,
  out-of-array index — is modelled at the machine level by `tailPattern`,
  `toSigned` and `set32slot`, and the theorems quantifying over write
  counts carry the `< 2^31` bound of the faithful region.
* the arrays `_queue`, `_tmp`, `_mid_temp`, `_ask`, `_ans` become total
  maps from the index type; every array access performed by the source on
  the inputs we reason about is proved to stay inside the bounds of the
  corresponding C array, so out-of-range points of the maps are never
  consulted.
* sample values are `uint64_t` in the source and are only stored, copied and
  compared (never subjected to arithmetic), so they are modelled as `Nat`.
  The `_ask` ranks are `uint64_t` holding values in `[0, 50000]` throughout
  (proved below), so their arithmetic never wraps and they are modelled
  as `Int` (the subtraction `_ask[j] -= now` is exact on all reached states).
* `dassert(false, ...)` aborts the process; a function that can hit an
  assertion returns `Except Unit` and the assertion becomes `.error ()`.
* each C loop with a data-dependent exit becomes a structurally recursive
  function over an explicit fuel argument; at every call site the fuel passed
  is proved sufficient, and where exhaustion cannot be excluded syntactically
  the function returns `Option` and the `none` case is proved unreachable.
-/

namespace SimplePerfCounter

/-- `# define MAX_QUEUE_LENGTH 50000`. -/
def MAX_QUEUE_LENGTH : Nat := 50000

/-- Modelled from the spec: the closed percentile-tag enumeration
`counter_percentile_type` (declared in a header outside this file) lists the
five tags p50, p90, p95, p99, p99.9 in ascending order followed by
`COUNTER_PERCENTILE_COUNT`; the algorithm's "must be sorted" comment relies
on this ascending order.  Tags are the integers `0,...,4`. -/
def COUNTER_PERCENTILE_COUNT : Int := 5

def COUNTER_PERCENTILE_50 : Int := 0

def COUNTER_PERCENTILE_90 : Int := 1

def COUNTER_PERCENTILE_95 : Int := 2

def COUNTER_PERCENTILE_99 : Int := 3

def COUNTER_PERCENTILE_999 : Int := 4

/-- An `int`-indexed C array of `α` values, as a total map.  (The one-field
wrapper also keeps evaluation of the embedding efficient: an array built by
a loop is materialized once instead of being recomputed at each access.) -/
structure Arr (α : Type) where
  get : Int → α

/-- Pointwise update of an array of sample values. -/
def upd (f : Arr Nat) (i : Int) (v : Nat) : Arr Nat :=
  ⟨fun k => if k = i then v else f.get k⟩

/-- Pointwise update of an array of rank/answer values. -/
def updI (f : Arr Int) (i : Int) (v : Int) : Arr Int :=
  ⟨fun k => if k = i then v else f.get k⟩

/-- The list of integers `a, a+1, ..., b` (empty when `b < a`); used to give
semantics to C `for` loops over a fixed index range. -/
def intRange (a b : Int) : List Int :=
  (List.range (b + 1 - a).toNat).map (fun (t : Nat) => a + (t : Int))

/-- The contents of the array slice `f[left..right]`, as a list. -/
def winL (f : Arr Nat) (left right : Int) : List Nat :=
  (intRange left right).map f.get

-- ----------- NUMBER perf counter ---------------------------------

/-- State of `perf_counter_number`: the single `std::atomic<uint64_t> _val`. -/
structure NumState where
  val : Nat
deriving DecidableEq

namespace perf_counter_number

/-- `virtual void increment() { _val++; }` (`uint64_t` wraps at `2^64`). -/
def increment (s : NumState) : NumState := ⟨(s.val + 1) % 2 ^ 64⟩

/-- `virtual void decrement() { _val--; }` (`uint64_t` wraps at `2^64`). -/
def decrement (s : NumState) : NumState := ⟨(s.val + (2 ^ 64 - 1)) % 2 ^ 64⟩

/-- `virtual void add(uint64_t val) { _val += val; }`. -/
def add (s : NumState) (v : Nat) : NumState := ⟨(s.val + v) % 2 ^ 64⟩

/-- `virtual void set(uint64_t val) { dassert(false, "invalid execution flow"); }` -/
def set (s : NumState) (v : Nat) : Except Unit NumState := .error ()

end perf_counter_number

-- ----------- NUMBER_PERCENTILE perf counter ----------------------

/-- State of `perf_counter_number_percentile`.

`tail` counts the completed `set` calls; it equals the source's
`std::atomic<int> _tail` cursor exactly while it stays below `2^31`
(the wrapped regime of the 32-bit cursor is modelled separately by
`tailPattern`, `toSigned` and `set32slot`).  `queue`, `tmp`, `mid_temp`
are the three `uint64_t` sample arrays; `ask` and `ans` are the
five-entry rank and answer arrays.
The constructor of the source initializes only `_tail` (to `0`); the array
members are default-initialized, i.e. their initial contents are
indeterminate, which the model renders by letting a state carry arbitrary
array contents. -/
structure PercState where
  tail : Nat
  queue : Nat → Nat
  tmp : Arr Nat
  mid_temp : Arr Nat
  ask : Arr Int
  ans : Arr Int

namespace perf_counter_number_percentile

/-- The constructor `perf_counter_number_percentile(...)`: `_tail` is set to
`0`; the contents of the five member arrays are left indeterminate (the
constructor does not write them), hence they are parameters here. -/
def init (q0 : Nat → Nat) (t0 m0 : Arr Nat) (k0 a0 : Arr Int) : PercState :=
  { tail := 0, queue := q0, tmp := t0, mid_temp := m0, ask := k0, ans := a0 }

/-- `virtual void increment() { dassert(false, "invalid execution flow"); }` -/
def increment (s : PercState) : Except Unit PercState := .error ()

/-- `virtual void decrement() { dassert(false, "invalid execution flow"); }` -/
def decrement (s : PercState) : Except Unit PercState := .error ()

/-- `virtual void add(uint64_t val) { dassert(false, "invalid execution flow"); }` -/
def add (s : PercState) (v : Nat) : Except Unit PercState := .error ()

/-- `virtual void set(uint64_t val)`:
`auto idx = _tail++; _queue[idx % MAX_QUEUE_LENGTH] = val;`.

`tail` counts completed `set` calls, and this rendering of the cursor and
slot arithmetic agrees with the source's 32-bit `_tail` exactly while
`tail < 2^31`; at and past the wrap point the source's cursor reads
negative and the computed slot leaves the array (see `tailPattern`,
`toSigned`, `set32slot`). -/
def set (s : PercState) (val : Nat) : PercState :=
  { s with
    tail := s.tail + 1
    queue := fun i => if i = s.tail % MAX_QUEUE_LENGTH then val else s.queue i }

/-- The value a bit pattern `w ∈ [0, 2^32)` of the source's
`std::atomic<int> _tail` denotes as a C `int` (32-bit two's complement). -/
def toSigned (w : Nat) : Int :=
  if w < 2 ^ 31 then (w : Int) else (w : Int) - 2 ^ 32

/-- The bit pattern of `_tail` after `n` `set` calls on a fresh counter
(the constructor runs `_tail(0)`): each `auto idx = _tail++` is an atomic
fetch-add, which on `std::atomic<int>` advances the pattern by one modulo
`2^32`. -/
def tailPattern (n : Nat) : Nat := n % 2 ^ 32

/-- The array index `idx % MAX_QUEUE_LENGTH` that `set` computes from the
pre-increment cursor with bit pattern `w`: C++ `%` on `int` is truncated
division, so once the cursor has wrapped negative this index is
non-positive, and for a negative index the store
`_queue[idx % MAX_QUEUE_LENGTH] = val` is outside the backing array. -/
def set32slot (w : Nat) : Int := Int.tmod (toSigned w) (MAX_QUEUE_LENGTH : Int)

/-- `virtual double get_percentile(counter_percentile_type type)`:
returns `-1.0` when `_tail == 0` (before the tag is validated), asserts on a
tag outside `[0, COUNTER_PERCENTILE_COUNT)`, and otherwise returns
`(double)_ans[type]`.  Sample values are integers, so the `double` result is
modelled as `Int`. -/
def get_percentile (s : PercState) (type : Int) : Except Unit Int :=
  if s.tail = 0 then .ok (-1)
  else if type < 0 ∨ COUNTER_PERCENTILE_COUNT ≤ type then .error ()
  else .ok (s.ans.get type)

-- find_mid ---------------------------------------------------------

/-- Inner `while` of the five-element insertion sort inside `find_mid`:
`for (j = i - 1; (j >= index) && (_mid_temp[j] > k); j--)
   _mid_temp[j + 1] = _mid_temp[j];`
Here `jp` stands for `j + 1`; the fuel is `i - index`, the exact number of
iterations after which `j < index` forces exit, so exhaustion coincides with
the bound check of the source loop. -/
def fmShift : Nat → Arr Nat → Int → Nat → (Arr Nat × Int)
  | 0, mt, jp, _ => (mt, jp)
  | fuel + 1, mt, jp, k =>
    if mt.get (jp - 1) > k then fmShift fuel (upd mt jp (mt.get (jp - 1))) (jp - 1) k
    else (mt, jp)

/-- The insertion sort of one run of `find_mid`:
`for (int i = index; i < index + remain_num; i++) { ... }`. -/
def fmSortGroup (mt : Arr Nat) (index : Int) (remain : Nat) : Arr Nat :=
  (List.range remain).foldl
    (fun (mt : Arr Nat) (t : Nat) =>
      let i : Int := index + (t : Int)
      let k : Nat := mt.get i
      let r := fmShift t mt i k
      upd r.1 r.2 k)
    mt

/-- Number of iterations of `for (index = left; index < right; index += 5)`,
i.e. the number of runs of five formed by `find_mid`. -/
def gNum (left right : Int) : Nat := ((right - left).toNat + 4) / 5

/-- The run-processing loop of `find_mid`: insertion-sort each run of five
(the last run holds `right - index + 1` elements) and compact each run's
median into `_mid_temp[(index - left) / 5]`. -/
def fmGroups (mt : Arr Nat) (left right : Int) : Arr Nat :=
  (List.range (gNum left right)).foldl
    (fun (mt : Arr Nat) (t : Nat) =>
      let index : Int := left + 5 * (t : Int)
      let remain : Int := if index + 5 ≥ right then right - index + 1 else 5
      let mt1 := fmSortGroup mt index remain.toNat
      upd mt1 ((index - left) / 5) (mt1.get (index + remain / 2)))
    mt

/-- `uint64_t find_mid(int left, int right)` on `_mid_temp`, threading the
array explicitly and returning (final array, returned median).  The
recursion `find_mid(0, (right - left - 1) / 5)` shrinks the range size
strictly, so fuel `right - left + 1` suffices (proved below); all integer
divisions reached have nonnegative operands, where Lean's `Int` division
agrees with the C one. -/
def find_mid : Nat → Arr Nat → Int → Int → Option (Arr Nat × Nat)
  | 0, _, _, _ => none
  | fuel + 1, mt, left, right =>
    if left = right then some (mt, mt.get left)
    else
      let mt1 := fmGroups mt left right
      find_mid fuel mt1 0 ((right - left - 1) / 5)

-- select -----------------------------------------------------------

/-- One pending `_calc_queue` entry (`_LEFT`, `_RIGHT`, `_QLEFT`, `_QRIGHT`). -/
structure CalcTask where
  left : Int
  right : Int
  qleft : Int
  qright : Int
deriving DecidableEq

/-- `insert_calc_queue(left, right, qleft, qright, calc_tail)`: append one
task after the current tail of the work queue. -/
def insert_calc_queue (q : List CalcTask) (left right qleft qright : Int) :
    List CalcTask :=
  q ++ [⟨left, right, qleft, qright⟩]

/-- The working state of one `calc()` run: the four member arrays, plus a
chronological record of the individual `_ans[i] = ...` stores the run has
performed so far (each record entry is one machine store; the final `ans` is
proved equal to replaying the record, which is what lets the model speak
about what a reader sees between two stores). -/
structure CalcSt where
  tmp : Arr Nat
  mid_temp : Arr Nat
  ask : Arr Int
  ans : Arr Int
  log : List (Int × Nat)

/-- Replay a record of `_ans` stores on top of an answer array. -/
def applyLog (a : Arr Int) : List (Int × Nat) → Arr Int
  | [] => a
  | (q, v) :: rest => applyLog (updI a q (v : Int)) rest

/-- `for (i = qleft; i <= qright; i++) if (_ask[i] == 1) _ans[i] = _tmp[left];
else dassert(false, ...)`: the answer-writing loop of the singleton branch of
`select`; the assertion becomes `none`. -/
def ansLoop (st : CalcSt) (left qleft qright : Int) : Option CalcSt :=
  (intRange qleft qright).foldlM
    (fun st i =>
      if st.ask.get i = 1 then
        some { st with
          ans := updI st.ans i (st.tmp.get left : Int)
          log := st.log ++ [(i, st.tmp.get left)] }
      else none)
    st

/-- `for (index = left; index <= right; index++) if (_tmp[index] == mid)
break;`: first index of the pivot value; fuel `right - left + 2` exceeds the
iteration count, so exhaustion is unreachable. -/
def pivotScan : Nat → Arr Nat → Nat → Int → Int → Int
  | 0, _, _, index, _ => index
  | fuel + 1, tmp, mid, index, right =>
    if index ≤ right ∧ ¬tmp.get index = mid then pivotScan fuel tmp mid (index + 1) right
    else index

/-- `while ((i <= j) && (_tmp[j] > mid)) j--;` of the partition loop. -/
def scanDown : Nat → Arr Nat → Nat → Int → Int → Int
  | 0, _, _, _, j => j
  | fuel + 1, tmp, mid, i, j =>
    if i ≤ j ∧ tmp.get j > mid then scanDown fuel tmp mid i (j - 1) else j

/-- `while ((i <= j) && (_tmp[i] < mid)) i++;` of the partition loop. -/
def scanUp : Nat → Arr Nat → Nat → Int → Int → Int
  | 0, _, _, i, _ => i
  | fuel + 1, tmp, mid, i, j =>
    if i ≤ j ∧ tmp.get i < mid then scanUp fuel tmp mid (i + 1) j else i

/-- One iteration of the partition loop of `select`:
`while ((i <= j) && (_tmp[j] > mid)) j--;
 if (i <= j) _tmp[index] = _tmp[j], index = j--;
 while ((i <= j) && (_tmp[i] < mid)) i++;
 if (i <= j) _tmp[index] = _tmp[i], index = i++;`
returning the new `(_tmp, index, i, j)`. -/
def partIter (tmp : Arr Nat) (mid : Nat) (index i j : Int) :
    Arr Nat × Int × Int × Int :=
  let j1 := scanDown ((j - i + 1).toNat + 1) tmp mid i j
  let s1 : Arr Nat × Int × Int :=
    if i ≤ j1 then (upd tmp index (tmp.get j1), j1, j1 - 1) else (tmp, index, j1)
  let i1 := scanUp ((s1.2.2 - i + 1).toNat + 1) s1.1 mid i s1.2.2
  let s2 : Arr Nat × Int × Int :=
    if i1 ≤ s1.2.2 then (upd s1.1 s1.2.1 (s1.1.get i1), i1, i1 + 1) else (s1.1, s1.2.1, i1)
  (s2.1, s2.2.1, s2.2.2, s1.2.2)

/-- The partition loop of `select`:
`for (i = left, j = right; i <= j;) { ... }` threading `_tmp` and the hole
position `index`.  The fuel passed by `select` is proved sufficient; a
state with `j < i` is returned unchanged whether the guard fails or the
fuel runs out, so the two coincide on all reached states. -/
def partLoop : Nat → Arr Nat → Nat → Int → Int → Int → (Arr Nat × Int)
  | 0, tmp, _, index, _, _ => (tmp, index)
  | fuel + 1, tmp, mid, index, i, j =>
    if i ≤ j then
      let s := partIter tmp mid index i j
      partLoop fuel s.1 mid s.2.1 s.2.2.1 s.2.2.2
    else (tmp, index)

/-- `for (i = qleft; (i <= qright) && (_ask[i] < now); i++);`. -/
def scanAskLo : Nat → Arr Int → Int → Int → Int → Int
  | 0, _, _, i, _ => i
  | fuel + 1, ask, qright, i, now =>
    if i ≤ qright ∧ ask.get i < now then scanAskLo fuel ask qright (i + 1) now else i

/-- `for (j = i; (j <= qright) && (_ask[j] == 0); j++) _ask[j]++;`. -/
def zeroBump : Nat → Arr Int → Int → Int → (Arr Int × Int)
  | 0, ask, _, j => (ask, j)
  | fuel + 1, ask, qright, j =>
    if j ≤ qright ∧ ask.get j = 0 then
      zeroBump fuel (updI ask j (ask.get j + 1)) qright (j + 1)
    else (ask, j)

/-- The pivot-choice phase of `select`:
`for (i = left; i <= right; i++) _mid_temp[i] = _tmp[i]; mid = find_mid(left,
right);` returning the final `_mid_temp` and the pivot value. -/
def selPivot (st : CalcSt) (t : CalcTask) : Option (Arr Nat × Nat) :=
  find_mid ((t.right - t.left).toNat + 1)
    ((intRange t.left t.right).foldl
      (fun (m : Arr Nat) (i : Int) => upd m i (st.tmp.get i)) st.mid_temp)
    t.left t.right

/-- The partition phase of `select`: locate the pivot
(`for (index = left; index <= right; index++) if (_tmp[index] == mid)
break;`), move `_tmp[left]` into its slot, run the partition loop from
`index = left` and finally store `_tmp[index] = mid`.  Returns the new
`_tmp` and the pivot's final position. -/
def selPartition (tmp : Arr Nat) (mid : Nat) (left right : Int) : Arr Nat × Int :=
  let index0 := pivotScan ((right - left).toNat + 2) tmp mid left right
  let r := partLoop ((right - left).toNat + 2) (upd tmp index0 (tmp.get left)) mid
    left left right
  (upd r.1 r.2 mid, r.2)

/-- The rank-bookkeeping phase of `select`:
`for (i = qleft; (i <= qright) && (_ask[i] < now); i++);
 for (j = i; j <= qright; j++) _ask[j] -= now;
 for (j = i; (j <= qright) && (_ask[j] == 0); j++) _ask[j]++;`
returning the new `_ask` and the split points `i` and `j`. -/
def selRanks (ask : Arr Int) (qleft qright now : Int) : Arr Int × Int × Int :=
  let i := scanAskLo ((qright - qleft + 1).toNat + 1) ask qright qleft now
  let ask1 := (intRange i qright).foldl
    (fun (a : Arr Int) (q : Int) => updI a q (a.get q - now)) ask
  let zb := zeroBump ((qright - i + 1).toNat + 1) ask1 qright i
  (zb.1, i, zb.2)

/-- `inline void select(int left, int right, int qleft, int qright, int
&calc_tail)`: processes one task, either answering ranks (singleton
branch) or partitioning around the median-of-medians pivot and enqueueing
the three sub-tasks.  Returns the updated working state and the list of
newly enqueued tasks; `none` models a hit assertion or `find_mid` fuel
exhaustion, both proved unreachable. -/
def select (st : CalcSt) (t : CalcTask) : Option (CalcSt × List CalcTask) :=
  if t.qleft > t.qright then some (st, [])
  else if t.left = t.right then
    (ansLoop st t.left t.qleft t.qright).map (fun st1 => (st1, []))
  else
    match selPivot st t with
    | none => none
    | some (mt1, mid) =>
      let pr := selPartition st.tmp mid t.left t.right
      let index := pr.2
      let now : Int := index - t.left + 1
      let rk := selRanks st.ask t.qleft t.qright now
      let i := rk.2.1
      let j := rk.2.2
      let outq : List CalcTask :=
        insert_calc_queue
          (insert_calc_queue
            (insert_calc_queue [] t.left (index - 1) t.qleft (i - 1))
            index index i (j - 1))
          (index + 1) t.right j t.qright
      some ({ st with tmp := pr.1, mid_temp := mt1, ask := rk.1 }, outq)

/-- The task-processing loop of `calc()`:
`for (l = 1; l <= r; l++) select(_calc_queue[l][...], ..., r);` — tasks are
consumed in insertion order while `select` appends new ones.  One fuel unit
is one processed task; the fuel passed by `calc'` is proved sufficient. -/
def selLoop : Nat → CalcSt → List CalcTask → Option CalcSt
  | _, st, [] => some st
  | 0, _, _ :: _ => none
  | fuel + 1, st, t :: rest =>
    match select st t with
    | none => none
    | some (st1, newts) => selLoop fuel st1 (rest ++ newts)

/-- The window length `tmp_num = _tail > MAX_QUEUE_LENGTH ? MAX_QUEUE_LENGTH
: _tail.load()`. -/
def tmpNum (s : PercState) : Nat := min s.tail MAX_QUEUE_LENGTH

/-- The five target ranks written into `_ask` by `calc`:
`_ask[tag] = (int)(tmp_num * p) + 1`.  For every `n ≤ 50000` and each of the
five factors, the `double` product `n * p` truncates to exactly
`n * (1000 p) / 1000` (the rounding error of the product, below `2^-12`
absolute, cannot reach the nearest multiple of `1/1000`), so the ranks are
defined by exact integer arithmetic. -/
def pRank (n : Nat) (q : Nat) : Nat :=
  n * [500, 900, 950, 990, 999].getD q 0 / 1000 + 1

/-- The body of `calc()` after the `_tail == 0` early return: copy the first
`tmp_num` queue entries into `_tmp`, set the five `_ask` ranks, seed the work
queue with `insert_calc_queue(0, tmp_num - 1, 0, COUNTER_PERCENTILE_COUNT -
1, r)` and run the task loop.  The fuel `3 ^ tmp_num` dominates the strictly
decreasing task measure, hence bounds the number of processed tasks. -/
def calcRun (s : PercState) : Option CalcSt :=
  let n := tmpNum s
  let tmp1 := (List.range n).foldl
    (fun (f : Arr Nat) (i : Nat) => upd f (i : Int) (s.queue i)) s.tmp
  let ask1 :=
    updI (updI (updI (updI (updI s.ask COUNTER_PERCENTILE_50 ((n * 500 / 1000 : Nat) + 1))
      COUNTER_PERCENTILE_90 ((n * 900 / 1000 : Nat) + 1))
      COUNTER_PERCENTILE_95 ((n * 950 / 1000 : Nat) + 1))
      COUNTER_PERCENTILE_99 ((n * 990 / 1000 : Nat) + 1))
      COUNTER_PERCENTILE_999 ((n * 999 / 1000 : Nat) + 1)
  let st0 : CalcSt := ⟨tmp1, s.mid_temp, ask1, s.ans, []⟩
  selLoop (3 ^ n) st0 (insert_calc_queue [] 0 ((n : Int) - 1) 0 (COUNTER_PERCENTILE_COUNT - 1))

/-- `void calc()`: returns immediately when `_tail == 0`, otherwise runs the
multi-selection and stores the updated member arrays back into the counter
state.  `none` models nontermination or a hit assertion, both proved
unreachable. -/
def calc' (s : PercState) : Option PercState :=
  if s.tail = 0 then some s
  else
    (calcRun s).map fun st =>
      { s with tmp := st.tmp, mid_temp := st.mid_temp, ask := st.ask, ans := st.ans }

/-- Record a list of samples left to right through `set`. -/
def recordAll (xs : List Nat) (s : PercState) : PercState :=
  xs.foldl set s

/-- The logically valid window of the buffer: the first `min(tail, C)` slots
of `_queue`, exactly what `calc` copies into `_tmp`. -/
def sampleWindow (s : PercState) : List Nat :=
  (List.range (tmpNum s)).map s.queue

/-- The value of 1-based rank `k` in the sorted order of `l`. -/
def sortedNth (l : List Nat) (k : Nat) : Nat :=
  (List.insertionSort (· ≤ ·) l).getD (k - 1) 0

/-- A concrete freshly constructed counter (all indeterminate array
contents instantiated with zeros) used for concrete scenarios. -/
def zeroState : PercState :=
  init (fun _ => 0) ⟨fun _ => 0⟩ ⟨fun _ => 0⟩ ⟨fun _ => 0⟩ ⟨fun _ => 0⟩

/-- A concrete working state with all-zero arrays, for concrete scenarios. -/
def zeroCalcSt : CalcSt :=
  ⟨⟨fun _ => 0⟩, ⟨fun _ => 0⟩, ⟨fun _ => 0⟩, ⟨fun _ => 0⟩, []⟩

/-- A concrete two-epoch scenario observing the `_ans` stores of a second
recompute mid-flight: record `[5, 5, 5]` and recompute (all answers 5),
record `[7, 7, 7]` more and run the recompute body; `st.log.take 1` replays
only the first of its five `_ans` stores.  The observation collects
(old tag0, old tag1, new tag0, new tag1, mid-flight tag0, mid-flight tag1). -/
def c2Obs : Option (Int × Int × Int × Int × Int × Int) := do
  let s1 ← calc' (recordAll [5, 5, 5] zeroState)
  let st ← calcRun (recordAll [7, 7, 7] s1)
  let part := applyLog s1.ans (st.log.take 1)
  pure (s1.ans.get 0, s1.ans.get 1, st.ans.get 0, st.ans.get 1, part.get 0, part.get 1)

-- ----------------------------------------------------------------
-- Basic lemmas: updates, index ranges, windows
-- ----------------------------------------------------------------

theorem upd_get (f : Arr Nat) (i : Int) (v : Nat) (k : Int) :
    (upd f i v).get k = if k = i then v else f.get k := rfl

theorem updI_get (f : Arr Int) (i : Int) (v : Int) (k : Int) :
    (updI f i v).get k = if k = i then v else f.get k := rfl

theorem upd_get_self (f : Arr Nat) (i : Int) (v : Nat) : (upd f i v).get i = v := by
  simp [upd_get]

theorem upd_get_ne (f : Arr Nat) (i : Int) (v : Nat) {k : Int} (h : k ≠ i) :
    (upd f i v).get k = f.get k := by
  simp [upd_get, h]

theorem updI_get_self (f : Arr Int) (i : Int) (v : Int) : (updI f i v).get i = v := by
  simp [updI_get]

theorem updI_get_ne (f : Arr Int) (i : Int) (v : Int) {k : Int} (h : k ≠ i) :
    (updI f i v).get k = f.get k := by
  simp [updI_get, h]

theorem mem_intRange {a b q : Int} : q ∈ intRange a b ↔ a ≤ q ∧ q ≤ b := by
  simp only [intRange, List.mem_map, List.mem_range]
  constructor
  · rintro ⟨t, ht, rfl⟩
    omega
  · rintro ⟨h1, h2⟩
    exact ⟨(q - a).toNat, by omega, by omega⟩

theorem intRange_length (a b : Int) : (intRange a b).length = (b + 1 - a).toNat := by
  unfold intRange
  rw [List.length_map, List.length_range]

theorem intRange_nodup (a b : Int) : (intRange a b).Nodup := by
  refine List.Nodup.map ?_ (List.nodup_range _)
  intro x y h
  have h' : a + (x : Int) = a + (y : Int) := h
  omega

theorem intRange_empty {a b : Int} (h : b < a) : intRange a b = [] := by
  unfold intRange
  rw [show (b + 1 - a).toNat = 0 by omega]
  rfl

theorem intRange_cons {a b : Int} (h : a ≤ b) : intRange a b = a :: intRange (a + 1) b := by
  unfold intRange
  rw [show (b + 1 - a).toNat = (b + 1 - (a + 1)).toNat + 1 by omega, List.range_succ_eq_map,
    List.map_cons, List.map_map]
  congr 1
  · simp
  · apply List.map_congr_left
    intro t _
    simp only [Function.comp_apply]
    push_cast
    ring

theorem intRange_append {a c b : Int} (h1 : a - 1 ≤ c) (h2 : c ≤ b) :
    intRange a b = intRange a c ++ intRange (c + 1) b := by
  obtain ⟨k, hk⟩ : ∃ k, (c + 1 - a).toNat = k := ⟨_, rfl⟩
  induction k generalizing a with
  | zero =>
    have hca : c < a := by omega
    rw [show intRange a c = [] from intRange_empty hca, List.nil_append,
      show c + 1 = a by omega]
  | succ k ih =>
    have hac : a ≤ c := by omega
    rw [intRange_cons (by omega), intRange_cons hac, List.cons_append]
    rw [ih (by omega) (by omega)]

theorem intRange_split {a m b : Int} (h1 : a ≤ m) (h2 : m ≤ b) :
    intRange a b = intRange a (m - 1) ++ m :: intRange (m + 1) b := by
  rw [@intRange_append a (m - 1) b (by omega) (by omega)]
  congr 1
  rw [show m - 1 + 1 = m by ring, intRange_cons h2]

theorem winL_congr {f g : Arr Nat} {l r : Int}
    (h : ∀ p, l ≤ p → p ≤ r → f.get p = g.get p) : winL f l r = winL g l r := by
  unfold winL
  apply List.map_congr_left
  intro p hp
  rw [mem_intRange] at hp
  exact h p hp.1 hp.2

theorem winL_length (f : Arr Nat) (l r : Int) : (winL f l r).length = (r + 1 - l).toNat := by
  simp [winL, intRange_length]

theorem winL_split (f : Arr Nat) {l m r : Int} (h1 : l ≤ m) (h2 : m ≤ r) :
    winL f l r = winL f l (m - 1) ++ f.get m :: winL f (m + 1) r := by
  unfold winL
  rw [intRange_split h1 h2]
  simp

theorem mem_winL {f : Arr Nat} {l r : Int} {x : Nat} :
    x ∈ winL f l r ↔ ∃ p, l ≤ p ∧ p ≤ r ∧ f.get p = x := by
  simp only [winL, List.mem_map]
  constructor
  · rintro ⟨p, hp, rfl⟩
    rw [mem_intRange] at hp
    exact ⟨p, hp.1, hp.2, rfl⟩
  · rintro ⟨p, h1, h2, rfl⟩
    exact ⟨p, mem_intRange.2 ⟨h1, h2⟩, rfl⟩

/-- Replacing the value at one position of a nodup index list changes the
multiset of mapped values by removing the old value and adding the new one
(stated additively to stay in `Nat`). -/
theorem count_map_upd (L : List Int) (hL : L.Nodup) (f : Arr Nat) (a : Int) (ha : a ∈ L)
    (v x : Nat) :
    (L.map (upd f a v).get).count x + (if f.get a = x then 1 else 0)
      = (L.map f.get).count x + (if v = x then 1 else 0) := by
  induction L with
  | nil => cases ha
  | cons b L ih =>
    rcases List.nodup_cons.1 hL with ⟨hbL, hLnd⟩
    rcases List.mem_cons.1 ha with rfl | haL
    · have hmap : L.map (upd f a v).get = L.map f.get := by
        apply List.map_congr_left
        intro p hp
        exact upd_get_ne f a v (fun hpa => hbL (hpa ▸ hp))
      simp only [List.map_cons, hmap, List.count_cons, beq_iff_eq, upd_get_self]
      split_ifs <;> omega
    · have hba : b ≠ a := fun hba => hbL (hba ▸ haL)
      have hih := ih hLnd haL
      simp only [List.map_cons, List.count_cons, beq_iff_eq, upd_get_ne f a v hba]
      split_ifs at hih ⊢ <;> omega

/-- Swapping the contents of two in-window positions permutes the window. -/
theorem winL_swap_perm (f : Arr Nat) {l r a b : Int} (ha1 : l ≤ a) (ha2 : a ≤ r)
    (hb1 : l ≤ b) (hb2 : b ≤ r) :
    (winL (upd (upd f a (f.get b)) b (f.get a)) l r).Perm (winL f l r) := by
  rw [List.perm_iff_count]
  intro x
  have hmemA : a ∈ intRange l r := mem_intRange.2 ⟨ha1, ha2⟩
  have hmemB : b ∈ intRange l r := mem_intRange.2 ⟨hb1, hb2⟩
  have hnd := intRange_nodup l r
  have h1 := count_map_upd (intRange l r) hnd (upd f a (f.get b)) b hmemB (f.get a) x
  have h2 := count_map_upd (intRange l r) hnd f a hmemA (f.get b) x
  have hgb : (upd f a (f.get b)).get b = f.get b := by
    by_cases h : b = a
    · rw [h, upd_get_self]
    · rw [upd_get_ne _ _ _ h]
  rw [hgb] at h1
  unfold winL
  split_ifs at h1 h2 <;> omega

-- ----------------------------------------------------------------
-- Loop specifications
-- ----------------------------------------------------------------

/-- The `_mid_temp[i] = _tmp[i]` copy loop of `select`, pointwise. -/
theorem copy_foldl_get (src dst : Arr Nat) (l r p : Int) :
    ((intRange l r).foldl (fun (m : Arr Nat) (i : Int) => upd m i (src.get i)) dst).get p
      = if l ≤ p ∧ p ≤ r then src.get p else dst.get p := by
  obtain ⟨k, hk⟩ : ∃ k, (r + 1 - l).toNat = k := ⟨_, rfl⟩
  induction k generalizing l dst with
  | zero =>
    rw [intRange_empty (by omega), List.foldl_nil, if_neg (by omega)]
  | succ k ih =>
    rw [intRange_cons (by omega), List.foldl_cons, ih _ (l + 1) (by omega)]
    by_cases hp : p = l
    · subst hp
      rw [if_neg (by omega), if_pos (by omega), upd_get_self]
    · by_cases hin : l + 1 ≤ p ∧ p ≤ r
      · rw [if_pos hin, if_pos (by omega)]
      · rw [if_neg hin, if_neg (by omega), upd_get_ne _ _ _ hp]

/-- The `_tmp[i] = _queue[i]` copy loop of `calc`, pointwise. -/
theorem copyN_foldl_get (q : Nat → Nat) (dst : Arr Nat) (nn : Nat) (p : Int) :
    ((List.range nn).foldl (fun (f : Arr Nat) (i : Nat) => upd f (i : Int) (q i)) dst).get p
      = if 0 ≤ p ∧ p < (nn : Int) then q p.toNat else dst.get p := by
  induction nn with
  | zero => rw [List.range_zero, List.foldl_nil, if_neg (by omega)]
  | succ n ih =>
    rw [List.range_succ, List.foldl_append, List.foldl_cons, List.foldl_nil]
    by_cases hp : p = (n : Int)
    · subst hp
      rw [upd_get_self, if_pos (by omega)]
      simp
    · rw [upd_get_ne _ _ _ hp, ih]
      by_cases hin : 0 ≤ p ∧ p < (n : Int)
      · rw [if_pos hin, if_pos (by omega)]
      · rw [if_neg hin, if_neg (by omega)]

/-- The `_ask[j] -= now` loop of `select`, pointwise. -/
theorem sub_foldl_get (a : Arr Int) (lo hi now p : Int) :
    ((intRange lo hi).foldl (fun (x : Arr Int) (q : Int) => updI x q (x.get q - now)) a).get p
      = if lo ≤ p ∧ p ≤ hi then a.get p - now else a.get p := by
  obtain ⟨k, hk⟩ : ∃ k, (hi + 1 - lo).toNat = k := ⟨_, rfl⟩
  induction k generalizing lo a with
  | zero =>
    rw [intRange_empty (by omega), List.foldl_nil, if_neg (by omega)]
  | succ k ih =>
    rw [intRange_cons (by omega), List.foldl_cons, ih _ (lo + 1) (by omega)]
    by_cases hp : p = lo
    · subst hp
      rw [if_neg (by omega), if_pos (by omega), updI_get_self]
    · by_cases hin : lo + 1 ≤ p ∧ p ≤ hi
      · rw [if_pos hin, if_pos (by omega), updI_get_ne _ _ _ hp]
      · rw [if_neg hin, if_neg (by omega), updI_get_ne _ _ _ hp]

theorem scanDown_spec (tmp : Arr Nat) (mid : Nat) (i : Int) :
    ∀ (fuel : Nat) (j : Int), (j - i + 1).toNat < fuel →
      scanDown fuel tmp mid i j ≤ j ∧
      min (i - 1) j ≤ scanDown fuel tmp mid i j ∧
      (∀ p, scanDown fuel tmp mid i j < p → p ≤ j → tmp.get p > mid) ∧
      (i ≤ scanDown fuel tmp mid i j → ¬ tmp.get (scanDown fuel tmp mid i j) > mid) := by
  intro fuel
  induction fuel with
  | zero => intro j hf; omega
  | succ fuel ih =>
    intro j hf
    have hstep : scanDown (fuel + 1) tmp mid i j =
        if i ≤ j ∧ tmp.get j > mid then scanDown fuel tmp mid i (j - 1) else j := rfl
    rw [hstep]
    by_cases hg : i ≤ j ∧ tmp.get j > mid
    · rw [if_pos hg]
      obtain ⟨h1, h2, h3, h4⟩ := ih (j - 1) (by omega)
      refine ⟨by omega, by omega, ?_, h4⟩
      intro p hp1 hp2
      rcases eq_or_lt_of_le hp2 with rfl | hlt
      · exact hg.2
      · exact h3 p hp1 (by omega)
    · rw [if_neg hg]
      exact ⟨le_refl _, by omega, fun p h1 h2 => absurd (h1.trans_le h2) (lt_irrefl j),
        fun h hc => hg ⟨h, hc⟩⟩

theorem scanUp_spec (tmp : Arr Nat) (mid : Nat) (j : Int) :
    ∀ (fuel : Nat) (i : Int), (j - i + 1).toNat < fuel →
      i ≤ scanUp fuel tmp mid i j ∧
      scanUp fuel tmp mid i j ≤ max (j + 1) i ∧
      (∀ p, i ≤ p → p < scanUp fuel tmp mid i j → tmp.get p < mid) ∧
      (scanUp fuel tmp mid i j ≤ j → ¬ tmp.get (scanUp fuel tmp mid i j) < mid) := by
  intro fuel
  induction fuel with
  | zero => intro i hf; omega
  | succ fuel ih =>
    intro i hf
    have hstep : scanUp (fuel + 1) tmp mid i j =
        if i ≤ j ∧ tmp.get i < mid then scanUp fuel tmp mid (i + 1) j else i := rfl
    rw [hstep]
    by_cases hg : i ≤ j ∧ tmp.get i < mid
    · rw [if_pos hg]
      obtain ⟨h1, h2, h3, h4⟩ := ih (i + 1) (by omega)
      refine ⟨by omega, by omega, ?_, h4⟩
      intro p hp1 hp2
      rcases eq_or_lt_of_le hp1 with rfl | hlt
      · exact hg.2
      · exact h3 p (by omega) hp2
    · rw [if_neg hg]
      exact ⟨le_refl _, by omega, fun p h1 h2 => absurd (h1.trans_lt h2) (lt_irrefl i),
        fun h hc => hg ⟨h, hc⟩⟩

theorem scanAskLo_spec (ask : Arr Int) (qright now : Int) :
    ∀ (fuel : Nat) (i : Int), (qright - i + 1).toNat < fuel →
      i ≤ scanAskLo fuel ask qright i now ∧
      scanAskLo fuel ask qright i now ≤ max (qright + 1) i ∧
      (∀ p, i ≤ p → p < scanAskLo fuel ask qright i now → ask.get p < now) ∧
      (scanAskLo fuel ask qright i now ≤ qright →
        ¬ ask.get (scanAskLo fuel ask qright i now) < now) := by
  intro fuel
  induction fuel with
  | zero => intro i hf; omega
  | succ fuel ih =>
    intro i hf
    have hstep : scanAskLo (fuel + 1) ask qright i now =
        if i ≤ qright ∧ ask.get i < now then scanAskLo fuel ask qright (i + 1) now else i := rfl
    rw [hstep]
    by_cases hg : i ≤ qright ∧ ask.get i < now
    · rw [if_pos hg]
      obtain ⟨h1, h2, h3, h4⟩ := ih (i + 1) (by omega)
      refine ⟨by omega, by omega, ?_, h4⟩
      intro p hp1 hp2
      rcases eq_or_lt_of_le hp1 with rfl | hlt
      · exact hg.2
      · exact h3 p (by omega) hp2
    · rw [if_neg hg]
      exact ⟨le_refl _, by omega, fun p h1 h2 => absurd (h1.trans_lt h2) (lt_irrefl i),
        fun h hc => hg ⟨h, hc⟩⟩

theorem zeroBump_spec (qright : Int) :
    ∀ (fuel : Nat) (ask : Arr Int) (j : Int), (qright - j + 1).toNat < fuel →
      j ≤ (zeroBump fuel ask qright j).2 ∧
      (zeroBump fuel ask qright j).2 ≤ max (qright + 1) j ∧
      (∀ p, j ≤ p → p < (zeroBump fuel ask qright j).2 → ask.get p = 0) ∧
      ((zeroBump fuel ask qright j).2 ≤ qright → ¬ ask.get (zeroBump fuel ask qright j).2 = 0) ∧
      (∀ p, (zeroBump fuel ask qright j).1.get p =
        if j ≤ p ∧ p < (zeroBump fuel ask qright j).2 then ask.get p + 1 else ask.get p) := by
  intro fuel
  induction fuel with
  | zero => intro ask j hf; omega
  | succ fuel ih =>
    intro ask j hf
    have hstep : zeroBump (fuel + 1) ask qright j =
        if j ≤ qright ∧ ask.get j = 0 then
          zeroBump fuel (updI ask j (ask.get j + 1)) qright (j + 1) else (ask, j) := rfl
    rw [hstep]
    by_cases hg : j ≤ qright ∧ ask.get j = 0
    · rw [if_pos hg]
      obtain ⟨h1, h2, h3, h4, h5⟩ := ih (updI ask j (ask.get j + 1)) (j + 1) (by omega)
      have hget : ∀ p, j + 1 ≤ p → (updI ask j (ask.get j + 1)).get p = ask.get p := by
        intro p hp
        exact updI_get_ne _ _ _ (by omega)
      refine ⟨by omega, by omega, ?_, ?_, ?_⟩
      · intro p hp1 hp2
        rcases eq_or_lt_of_le hp1 with rfl | hlt
        · exact hg.2
        · have := h3 p (by omega) hp2
          rwa [hget p (by omega)] at this
      · intro hle
        have := h4 hle
        rwa [hget _ (by omega)] at this
      · intro p
        rw [h5 p]
        by_cases hin : j + 1 ≤ p ∧ p < (zeroBump fuel (updI ask j (ask.get j + 1)) qright (j + 1)).2
        · rw [if_pos hin, if_pos (by omega), hget p (by omega)]
        · rw [if_neg hin]
          by_cases hpj : p = j
          · subst hpj
            rw [updI_get_self, if_pos (by omega), hg.2]
          · rw [updI_get_ne _ _ _ hpj, if_neg (by omega)]
    · rw [if_neg hg]
      refine ⟨le_refl _, ?_, ?_, ?_, ?_⟩
      · show j ≤ max (qright + 1) j
        omega
      · intro p h1 h2
        have h2' : p < j := h2
        omega
      · intro h hc
        exact hg ⟨h, hc⟩
      · intro p
        show ask.get p = if j ≤ p ∧ p < j then ask.get p + 1 else ask.get p
        rw [if_neg (by omega)]

theorem pivotScan_spec (tmp : Arr Nat) (mid : Nat) (right : Int) :
    ∀ (fuel : Nat) (index : Int), (right - index + 1).toNat < fuel →
      (∃ p, index ≤ p ∧ p ≤ right ∧ tmp.get p = mid) →
      index ≤ pivotScan fuel tmp mid index right ∧
      pivotScan fuel tmp mid index right ≤ right ∧
      tmp.get (pivotScan fuel tmp mid index right) = mid := by
  intro fuel
  induction fuel with
  | zero =>
    intro index hf hex
    obtain ⟨p, h1, h2, _⟩ := hex
    omega
  | succ fuel ih =>
    intro index hf hex
    obtain ⟨p, hp1, hp2, hp3⟩ := hex
    have hstep : pivotScan (fuel + 1) tmp mid index right =
        if index ≤ right ∧ ¬tmp.get index = mid then
          pivotScan fuel tmp mid (index + 1) right else index := rfl
    rw [hstep]
    by_cases hg : index ≤ right ∧ ¬tmp.get index = mid
    · rw [if_pos hg]
      have hpi : index + 1 ≤ p := by
        rcases eq_or_lt_of_le hp1 with rfl | h
        · exact absurd hp3 hg.2
        · omega
      obtain ⟨h1, h2, h3⟩ := ih (index + 1) (by omega) ⟨p, hpi, hp2, hp3⟩
      exact ⟨by omega, h2, h3⟩
    · rw [if_neg hg]
      have hir : index ≤ right := le_trans hp1 hp2
      have hmid : tmp.get index = mid := by
        by_contra hc
        exact hg ⟨hir, hc⟩
      exact ⟨le_refl _, hir, hmid⟩

-- applyLog ---------------------------------------------------------

theorem applyLog_append (a : Arr Int) (l1 l2 : List (Int × Nat)) :
    applyLog a (l1 ++ l2) = applyLog (applyLog a l1) l2 := by
  induction l1 generalizing a with
  | nil => rfl
  | cons p rest ih =>
    obtain ⟨q, v⟩ := p
    simp only [List.cons_append, applyLog]
    exact ih _

theorem applyLog_get_of_forall_ne (log : List (Int × Nat)) :
    ∀ (a : Arr Int) (q : Int), (∀ v, (q, v) ∉ log) → (applyLog a log).get q = a.get q := by
  induction log with
  | nil => intro a q _; rfl
  | cons p rest ih =>
    intro a q h
    obtain ⟨w, v⟩ := p
    have hq : q ≠ w := by
      intro hqw
      exact h v (by rw [hqw]; exact List.mem_cons_self _ _)
    show (applyLog (updI a w (v : Int)) rest).get q = a.get q
    rw [ih _ q (fun u hu => h u (List.mem_cons_of_mem _ hu)), updI_get_ne _ _ _ hq]

theorem applyLog_get_of_mem (log : List (Int × Nat)) :
    ∀ (a : Arr Int) (q : Int) (v : Nat), (log.map Prod.fst).Nodup → (q, v) ∈ log →
      (applyLog a log).get q = (v : Int) := by
  induction log with
  | nil => intro a q v _ h; cases h
  | cons p rest ih =>
    intro a q v hnd hmem
    obtain ⟨w, u⟩ := p
    rw [List.map_cons, List.nodup_cons] at hnd
    rcases List.mem_cons.1 hmem with heq | hrest
    · obtain ⟨rfl, rfl⟩ := Prod.mk.injEq .. ▸ (Prod.ext_iff.1 heq)
      show (applyLog (updI a q (v : Int)) rest).get q = (v : Int)
      have hnotin : ∀ u', (q, u') ∉ rest := by
        intro u' hu'
        exact hnd.1 (List.mem_map.2 ⟨(q, u'), hu', rfl⟩)
      rw [applyLog_get_of_forall_ne rest _ q hnotin, updI_get_self]
    · show (applyLog (updI a w (u : Int)) rest).get q = (v : Int)
      exact ih _ q v hnd.2 hrest

theorem applyLog_take_get (log : List (Int × Nat)) (a : Arr Int) (q : Int) (k : Nat)
    (hnd : (log.map Prod.fst).Nodup) :
    (applyLog a (log.take k)).get q = a.get q ∨
    (applyLog a (log.take k)).get q = (applyLog a log).get q := by
  by_cases hq : ∃ v, (q, v) ∈ log.take k
  · obtain ⟨v, hv⟩ := hq
    have hsub := List.take_sublist k log
    have hndt : ((log.take k).map Prod.fst).Nodup := List.Nodup.sublist (hsub.map _) hnd
    right
    rw [applyLog_get_of_mem _ _ q v hndt hv, applyLog_get_of_mem _ _ q v hnd (hsub.subset hv)]
  · push_neg at hq
    left
    exact applyLog_get_of_forall_ne _ _ q hq

-- ----------------------------------------------------------------
-- find_mid: the returned pivot is a value of the input slice
-- ----------------------------------------------------------------

theorem fmShift_spec (k : Nat) :
    ∀ (fuel : Nat) (mt : Arr Nat) (jp : Int),
      jp - fuel ≤ (fmShift fuel mt jp k).2 ∧
      (fmShift fuel mt jp k).2 ≤ jp ∧
      (∀ p, p ≤ (fmShift fuel mt jp k).2 → (fmShift fuel mt jp k).1.get p = mt.get p) ∧
      (∀ p, jp < p → (fmShift fuel mt jp k).1.get p = mt.get p) ∧
      (∀ p, (fmShift fuel mt jp k).2 < p → p ≤ jp →
        (fmShift fuel mt jp k).1.get p = mt.get (p - 1)) := by
  intro fuel
  induction fuel with
  | zero =>
    intro mt jp
    have hz : fmShift 0 mt jp k = (mt, jp) := rfl
    rw [hz]
    exact ⟨by omega, le_refl _, fun p _ => rfl, fun p _ => rfl,
      fun p h1 h2 => absurd (h1.trans_le h2) (lt_irrefl jp)⟩
  | succ fuel ih =>
    intro mt jp
    have hstep : fmShift (fuel + 1) mt jp k =
        if mt.get (jp - 1) > k then fmShift fuel (upd mt jp (mt.get (jp - 1))) (jp - 1) k
        else (mt, jp) := rfl
    rw [hstep]
    by_cases hg : mt.get (jp - 1) > k
    · rw [if_pos hg]
      obtain ⟨h1, h2, h3, h4, h5⟩ := ih (upd mt jp (mt.get (jp - 1))) (jp - 1)
      refine ⟨by omega, by omega, ?_, ?_, ?_⟩
      · intro p hp
        rw [h3 p hp, upd_get_ne _ _ _ (by omega)]
      · intro p hp
        rcases eq_or_lt_of_le (by omega : jp + 1 ≤ p) with h | h
        · rw [h4 p (by omega), upd_get_ne _ _ _ (by omega)]
        · rw [h4 p (by omega), upd_get_ne _ _ _ (by omega)]
      · intro p hp1 hp2
        rcases eq_or_lt_of_le hp2 with rfl | hlt
        · rw [h4 p (by omega), upd_get_self]
        · rw [h5 p hp1 (by omega), upd_get_ne _ _ _ (by omega)]
    · rw [if_neg hg]
      exact ⟨by omega, le_refl _, fun p _ => rfl, fun p _ => rfl,
        fun p h1 h2 => absurd (h1.trans_le h2) (lt_irrefl jp)⟩

/-- One step of the insertion sort of `find_mid` keeps values outside the
processed prefix and only rearranges values inside it. -/
theorem fmSortGroup_spec (index : Int) :
    ∀ (remain : Nat) (mt : Arr Nat),
      (∀ p, p < index ∨ index + (remain : Int) ≤ p →
        (fmSortGroup mt index remain).get p = mt.get p) ∧
      (∀ p, index ≤ p → p < index + (remain : Int) →
        ∃ s, index ≤ s ∧ s < index + (remain : Int) ∧
          (fmSortGroup mt index remain).get p = mt.get s) := by
  intro remain
  induction remain with
  | zero =>
    intro mt
    exact ⟨fun p _ => rfl, fun p h1 h2 => absurd (h1.trans_lt h2) (by omega)⟩
  | succ n ih =>
    intro mt
    have hstep : fmSortGroup mt index (n + 1) =
        (fun (mt : Arr Nat) (t : Nat) =>
          let i : Int := index + (t : Int)
          let k : Nat := mt.get i
          let r := fmShift t mt i k
          upd r.1 r.2 k) (fmSortGroup mt index n) n := by
      unfold fmSortGroup
      rw [List.range_succ, List.foldl_append, List.foldl_cons, List.foldl_nil]
    obtain ⟨ihout, ihin⟩ := ih mt
    set g := fmSortGroup mt index n with hg
    have hsh := fmShift_spec (g.get (index + (n : Int))) n g (index + (n : Int))
    set r := fmShift n g (index + (n : Int)) (g.get (index + (n : Int))) with hr
    obtain ⟨hs1, hs2, hs3, hs4, hs5⟩ := hsh
    have hout1 : ∀ p, p < index ∨ index + ((n : Int) + 1) ≤ p →
        (upd r.1 r.2 (g.get (index + (n : Int)))).get p = g.get p := by
      intro p hp
      rw [upd_get_ne _ _ _ (by omega)]
      rcases hp with hp | hp
      · exact hs3 p (by omega)
      · exact hs4 p (by omega)
    constructor
    · intro p hp
      rw [hstep]
      show (upd r.1 r.2 (g.get (index + (n : Int)))).get p = mt.get p
      rw [hout1 p (by push_cast at hp ⊢; omega)]
      exact ihout p (by omega)
    · intro p hp1 hp2
      rw [hstep]
      show ∃ s, index ≤ s ∧ s < index + ((n : Int) + 1) ∧
        (upd r.1 r.2 (g.get (index + (n : Int)))).get p = mt.get s
      push_cast at hp2
      have hgprov : ∀ s0, index ≤ s0 → s0 ≤ index + (n : Int) →
          ∃ s, index ≤ s ∧ s < index + ((n : Int) + 1) ∧ g.get s0 = mt.get s := by
        intro s0 h1 h2
        rcases eq_or_lt_of_le h2 with rfl | hlt
        · exact ⟨index + (n : Int), by omega, by omega, ihout _ (by omega)⟩
        · obtain ⟨s, hsa, hsb, hsc⟩ := ihin s0 h1 (by omega)
          exact ⟨s, hsa, by omega, hsc⟩
      by_cases hpr : p = r.2
      · subst hpr
        rw [upd_get_self]
        exact hgprov (index + (n : Int)) (by omega) (le_refl _)
      · rw [upd_get_ne _ _ _ hpr]
        rcases lt_or_gt_of_ne hpr with hlt | hgt
        · rw [hs3 p (by omega)]
          exact hgprov p hp1 (by omega)
        · rw [hs5 p hgt (by omega)]
          exact hgprov (p - 1) (by omega) (by omega)

theorem gNum_pos_iff (left right : Int) (t : Nat) :
    t < gNum left right ↔ left + 5 * (t : Int) < right := by
  unfold gNum
  omega

/-- The loop body of `fmGroups`, named for the proofs below. -/
def gStep (left right : Int) (mt : Arr Nat) (t : Nat) : Arr Nat :=
  let index : Int := left + 5 * (t : Int)
  let remain : Int := if index + 5 ≥ right then right - index + 1 else 5
  let mt1 := fmSortGroup mt index remain.toNat
  upd mt1 ((index - left) / 5) (mt1.get (index + remain / 2))

theorem fmGroups_eq (mt : Arr Nat) (left right : Int) :
    fmGroups mt left right = (List.range (gNum left right)).foldl (gStep left right) mt := rfl

theorem fmGroups_aux (mt : Arr Nat) (left right : Int) (hl : 0 ≤ left) :
    ∀ gg : Nat, gg ≤ gNum left right →
      (gg < gNum left right → ∀ p, left + 5 * (gg : Int) ≤ p → p ≤ right →
        ((List.range gg).foldl (gStep left right) mt).get p = mt.get p) ∧
      (∀ p : Int, 0 ≤ p → p < (gg : Int) →
        ∃ s, left ≤ s ∧ s ≤ right ∧
          ((List.range gg).foldl (gStep left right) mt).get p = mt.get s) := by
  intro gg
  induction gg with
  | zero =>
    intro _
    exact ⟨fun _ p _ _ => rfl, fun p h1 h2 => by omega⟩
  | succ t ih =>
    intro hgg
    obtain ⟨ihA, ihB⟩ := ih (by omega)
    have ht : t < gNum left right := by omega
    have hidx : left + 5 * (t : Int) < right := (gNum_pos_iff left right t).1 ht
    rw [List.range_succ, List.foldl_append, List.foldl_cons, List.foldl_nil]
    set base := (List.range t).foldl (gStep left right) mt with hbase
    set index : Int := left + 5 * (t : Int) with hindexdef
    set remain : Int := if index + 5 ≥ right then right - index + 1 else 5 with hremdef
    have hrem1 : 1 ≤ remain := by
      rw [hremdef]
      split <;> omega
    have hremhi : index + remain - 1 ≤ right := by
      rw [hremdef]
      split <;> omega
    have hremN : ((remain.toNat : Nat) : Int) = remain := by omega
    have hstep : gStep left right base t =
        upd (fmSortGroup base index remain.toNat) ((index - left) / 5)
          ((fmSortGroup base index remain.toNat).get (index + remain / 2)) := rfl
    rw [hstep]
    obtain ⟨gout, gin⟩ := fmSortGroup_spec index remain.toNat base
    rw [hremN] at gout gin
    have hcomp : (index - left) / 5 = (t : Int) := by omega
    have hbaseorig : ∀ p, index ≤ p → p ≤ right → base.get p = mt.get p := by
      intro p h1 h2
      exact ihA ht p (by omega) h2
    constructor
    · intro hlt p hp1 hp2
      have hnext : left + 5 * ((t : Int) + 1) < right := by
        have := (gNum_pos_iff left right (t + 1)).1 hlt
        omega
      have hrem5 : remain = 5 := by
        rw [hremdef, if_neg (by omega)]
      rw [upd_get_ne _ _ _ (by omega), gout p (by omega)]
      exact hbaseorig p (by omega) hp2
    · intro p hp0 hpt
      by_cases hpt' : p = (t : Int)
      · subst hpt'
        rw [hcomp, upd_get_self]
        obtain ⟨s0, hs0a, hs0b, hs0c⟩ := gin (index + remain / 2) (by omega) (by omega)
        refine ⟨s0, by omega, by omega, ?_⟩
        rw [hs0c]
        exact hbaseorig s0 hs0a (by omega)
      · have hneq : p ≠ (index - left) / 5 := by omega
        rw [upd_get_ne _ _ _ hneq, gout p (by omega)]
        exact ihB p hp0 (by omega)

/-- Every compacted run median is a value of the original slice. -/
theorem fmGroups_spec (mt : Arr Nat) (left right : Int) (hl : 0 ≤ left) :
    ∀ p, 0 ≤ p → p < (gNum left right : Int) →
      ∃ s, left ≤ s ∧ s ≤ right ∧ (fmGroups mt left right).get p = mt.get s := by
  intro p h1 h2
  rw [fmGroups_eq]
  exact (fmGroups_aux mt left right hl (gNum left right) (le_refl _)).2 p h1 h2

/-- The pivot returned by `find_mid` is one of the values of
`_mid_temp[left..right]` at entry. -/
theorem find_mid_spec :
    ∀ (fuel : Nat) (mt : Arr Nat) (left right : Int), 0 ≤ left → left ≤ right →
      (right - left).toNat < fuel →
      ∃ mt2 v, find_mid fuel mt left right = some (mt2, v) ∧
        ∃ s, left ≤ s ∧ s ≤ right ∧ v = mt.get s := by
  intro fuel
  induction fuel with
  | zero =>
    intro mt left right h0 hlr hf
    omega
  | succ fuel ih =>
    intro mt left right h0 hlr hf
    have hstep : find_mid (fuel + 1) mt left right =
        if left = right then some (mt, mt.get left)
        else find_mid fuel (fmGroups mt left right) 0 ((right - left - 1) / 5) := rfl
    rw [hstep]
    by_cases heq : left = right
    · rw [if_pos heq]
      exact ⟨mt, mt.get left, rfl, left, le_refl _, by omega, rfl⟩
    · rw [if_neg heq]
      have hlt : left < right := lt_of_le_of_ne hlr heq
      have hgpos : 1 ≤ gNum left right := by
        have := (gNum_pos_iff left right 0).2 (by omega)
        omega
      have hr' : (right - left - 1) / 5 = (gNum left right : Int) - 1 := by
        unfold gNum
        omega
      obtain ⟨mt2, v, hfm, s', hs1, hs2, hs3⟩ :=
        ih (fmGroups mt left right) 0 ((right - left - 1) / 5) (by omega)
          (by rw [hr']; omega)
          (by rw [hr']; unfold gNum; omega)
      refine ⟨mt2, v, hfm, ?_⟩
      obtain ⟨s, hsa, hsb, hsc⟩ := fmGroups_spec mt left right h0 s' hs1 (by rw [hr'] at hs2; omega)
      exact ⟨s, hsa, hsb, by rw [hs3, hsc]⟩

-- ----------------------------------------------------------------
-- The partition loop
-- ----------------------------------------------------------------

theorem upd_upd_get (f : Arr Nat) (a : Int) (v w : Nat) (p : Int) :
    (upd (upd f a v) a w).get p = (upd f a w).get p := by
  by_cases h : p = a <;> simp [upd_get, h]

/-- Moving the hole from `a` to `b` (copying `_tmp[b]` into the hole at `a`)
permutes the window once the pivot is conceptually placed in the hole. -/
theorem hole_move_perm (tmp : Arr Nat) (mid : Nat) {l r a b : Int}
    (ha1 : l ≤ a) (ha2 : a ≤ r) (hb1 : l ≤ b) (hb2 : b ≤ r) :
    (winL (upd (upd tmp a (tmp.get b)) b mid) l r).Perm
      (winL (upd tmp a mid) l r) := by
  have hcong : winL (upd (upd tmp a (tmp.get b)) b mid) l r =
      winL (upd (upd (upd tmp a mid) a ((upd tmp a mid).get b)) b
        ((upd tmp a mid).get a)) l r := by
    apply winL_congr
    intro p hp1 hp2
    by_cases hpb : p = b
    · subst hpb
      by_cases hba : p = a
      · subst hba
        simp [upd_get]
      · simp [upd_get, hba]
    · by_cases hpa : p = a
      · subst hpa
        have hba : b ≠ p := fun h => hpb h.symm
        simp [upd_get, hpb, hba]
      · simp [upd_get, hpb, hpa]
  rw [hcong]
  exact winL_swap_perm (upd tmp a mid) ha1 ha2 hb1 hb2

/-- Invariant of the partition loop at each loop head. -/
structure PartInv (mid : Nat) (left right : Int) (tmp0 tmp : Arr Nat)
    (index i j : Int) : Prop where
  hil : left ≤ i
  hij1 : i ≤ j + 1
  hjr : j ≤ right
  hjl : left - 1 ≤ j
  hir : i ≤ right + 1
  hxl : left ≤ index
  hxr : index ≤ right
  hc : (index = i - 1 ∧ left < i) ∨ (index = i ∧ i = left ∧ j = right ∧ left ≤ right) ∨
    (index = j + 1 ∧ j < i)
  hD : ∀ p, left ≤ p → p < i → p ≠ index → tmp.get p ≤ mid
  hE : ∀ p, j < p → p ≤ right → p ≠ index → mid ≤ tmp.get p
  hP : (winL (upd tmp index mid) left right).Perm (winL tmp0 left right)
  hF : ∀ p, p < left ∨ right < p → tmp.get p = tmp0.get p

/-- Postcondition of the partition step of `select` (before the final
`_tmp[index] = mid` store). -/
structure PartOut (mid : Nat) (left right : Int) (tmp0 tmp2 : Arr Nat)
    (index2 : Int) : Prop where
  hl : left ≤ index2
  hr : index2 ≤ right
  hlo : ∀ p, left ≤ p → p < index2 → tmp2.get p ≤ mid
  hhi : ∀ p, index2 < p → p ≤ right → mid ≤ tmp2.get p
  hperm : (winL (upd tmp2 index2 mid) left right).Perm (winL tmp0 left right)
  hframe : ∀ p, p < left ∨ right < p → tmp2.get p = tmp0.get p

theorem part_exit (mid : Nat) (left right : Int) (tmp0 tmp : Arr Nat)
    (index i j : Int) (inv : PartInv mid left right tmp0 tmp index i j)
    (hij : j < i) : PartOut mid left right tmp0 tmp index := by
  obtain ⟨hil, hij1, hjr, hjl, hir, hxl, hxr, hc, hD, hE, hP, hF⟩ := inv
  have hieq : i = j + 1 := by omega
  rcases hc with ⟨hx, hli⟩ | ⟨hx, hi, hj, hlr⟩ | ⟨hx, hji⟩
  · refine ⟨hxl, hxr, ?_, ?_, hP, hF⟩
    · intro p h1 h2
      exact hD p h1 (by omega) (by omega)
    · intro p h1 h2
      exact hE p (by omega) h2 (by omega)
  · omega
  · refine ⟨hxl, hxr, ?_, ?_, hP, hF⟩
    · intro p h1 h2
      exact hD p h1 (by omega) (by omega)
    · intro p h1 h2
      exact hE p (by omega) h2 (by omega)

theorem partLoop_spec (mid : Nat) (left right : Int) (tmp0 : Arr Nat) :
    ∀ (fuel : Nat) (tmp : Arr Nat) (index i j : Int),
      PartInv mid left right tmp0 tmp index i j →
      (j - i + 1).toNat ≤ fuel →
      PartOut mid left right tmp0 (partLoop fuel tmp mid index i j).1
        (partLoop fuel tmp mid index i j).2 := by
  intro fuel
  induction fuel with
  | zero =>
    intro tmp index i j inv hf
    have hz : partLoop 0 tmp mid index i j = (tmp, index) := rfl
    rw [hz]
    exact part_exit mid left right tmp0 tmp index i j inv (by omega)
  | succ fuel ih =>
    intro tmp index i j inv hf
    have hstep : partLoop (fuel + 1) tmp mid index i j =
        if i ≤ j then
          partLoop fuel (partIter tmp mid index i j).1 mid
            (partIter tmp mid index i j).2.1 (partIter tmp mid index i j).2.2.1
            (partIter tmp mid index i j).2.2.2
        else (tmp, index) := rfl
    rw [hstep]
    by_cases hij : i ≤ j
    · rw [if_pos hij]
      obtain ⟨hil, hij1, hjr, hjl, hir, hxl, hxr, hc, hD, hE, hP, hF⟩ := inv
      have hc2 : index ≤ i - 1 ∨ (index = i ∧ i = left ∧ j = right) := by
        rcases hc with ⟨hx, _⟩ | ⟨hx, hi, hj, _⟩ | ⟨hx, hji⟩
        · left; omega
        · right; exact ⟨hx, hi, hj⟩
        · omega
      have hxle : index ≤ j := by
        rcases hc2 with h | ⟨hx, hi, hj⟩ <;> omega
      obtain ⟨hsd1, hsd2, hsd3, hsd4⟩ :=
        scanDown_spec tmp mid i ((j - i + 1).toNat + 1) j (by omega)
      set j1 := scanDown ((j - i + 1).toNat + 1) tmp mid i j with hj1def
      by_cases hA : i ≤ j1
      · -- the j-branch of the iteration fires
        have hgj1 : tmp.get j1 ≤ mid := by
          have := hsd4 hA
          omega
        set tmpA := upd tmp index (tmp.get j1) with htmpAdef
        obtain ⟨hsu1, hsu2, hsu3, hsu4⟩ :=
          scanUp_spec tmpA mid (j1 - 1) (((j1 - 1) - i + 1).toNat + 1) i (by omega)
        set i1 := scanUp (((j1 - 1) - i + 1).toNat + 1) tmpA mid i (j1 - 1) with hi1def
        have hiterA : partIter tmp mid index i j =
            (if i1 ≤ j1 - 1 then (upd tmpA j1 (tmpA.get i1), i1, i1 + 1, j1 - 1)
             else (tmpA, j1, i1, j1 - 1)) := by
          simp only [partIter]
          rw [← hj1def, if_pos hA]
          rw [← htmpAdef, ← hi1def]
          by_cases hB : i1 ≤ j1 - 1
          · rw [if_pos hB, if_pos hB]
          · rw [if_neg hB, if_neg hB]
        -- facts shared by both sub-cases
        have hAunch : ∀ p, p ≠ index → tmpA.get p = tmp.get p := by
          intro p hp
          rw [htmpAdef, upd_get_ne _ _ _ hp]
        have hDA : ∀ p, left ≤ p → p < i → tmpA.get p ≤ mid := by
          intro p h1 h2
          by_cases hp : p = index
          · rw [hp, htmpAdef, upd_get_self]
            exact hgj1
          · rw [hAunch p hp]
            exact hD p h1 h2 hp
        have hEgtj1 : ∀ p, j1 < p → p ≤ right → mid ≤ tmpA.get p := by
          intro p h1 h2
          have hpne : p ≠ index := by
            rcases hc2 with h | ⟨hx, hi, hj⟩ <;> omega
          rw [hAunch p hpne]
          by_cases hpj : p ≤ j
          · exact le_of_lt (hsd3 p h1 hpj)
          · exact hE p (by omega) h2 hpne
        have hpermA : (winL (upd tmpA j1 mid) left right).Perm (winL tmp0 left right) := by
          rw [htmpAdef]
          exact (hole_move_perm tmp mid hxl hxr (by omega) (by omega)).trans hP
        have hFA : ∀ p, p < left ∨ right < p → tmpA.get p = tmp0.get p := by
          intro p hp
          rw [hAunch p (by omega), hF p hp]
        by_cases hB : i1 ≤ j1 - 1
        · -- the i-branch fires as well
          have hcall : partLoop fuel (partIter tmp mid index i j).1 mid
              (partIter tmp mid index i j).2.1 (partIter tmp mid index i j).2.2.1
              (partIter tmp mid index i j).2.2.2 =
              partLoop fuel (upd tmpA j1 (tmpA.get i1)) mid i1 (i1 + 1) (j1 - 1) := by
            rw [hiterA, if_pos hB]
          rw [hcall]
          have hgi1 : mid ≤ tmpA.get i1 := by
            have := hsu4 hB
            omega
          apply ih
          · refine ⟨by omega, by omega, by omega, by omega, by omega, by omega, by omega,
              Or.inl ⟨by omega, by omega⟩, ?_, ?_, ?_, ?_⟩
            · -- new D on [left, i1 + 1) minus hole i1
              intro p h1 h2 h3
              have hpi1 : p < i1 := by omega
              by_cases hpi : p < i
              · by_cases hpj1 : p = j1
                · omega
                · rw [upd_get_ne _ _ _ hpj1]
                  exact hDA p h1 hpi
              · have : tmpA.get p < mid := hsu3 p (by omega) hpi1
                rw [upd_get_ne _ _ _ (by omega)]
                omega
            · -- new E on (j1 - 1, right] minus hole i1
              intro p h1 h2 h3
              by_cases hpj1 : p = j1
              · rw [hpj1, upd_get_self]
                exact hgi1
              · rw [upd_get_ne _ _ _ hpj1]
                exact hEgtj1 p (by omega) h2
            · -- permutation
              have := @hole_move_perm tmpA mid left right j1 i1
                (by omega) (by omega) (by omega) (by omega)
              exact this.trans hpermA
            · intro p hp
              rw [upd_get_ne _ _ _ (by omega), hFA p hp]
          · omega
        · -- the i-branch is skipped: next call exits immediately
          have hcall : partLoop fuel (partIter tmp mid index i j).1 mid
              (partIter tmp mid index i j).2.1 (partIter tmp mid index i j).2.2.1
              (partIter tmp mid index i j).2.2.2 =
              partLoop fuel tmpA mid j1 i1 (j1 - 1) := by
            rw [hiterA, if_neg hB]
          rw [hcall]
          have hi1eq : i1 = j1 := by omega
          apply ih
          · refine ⟨by omega, by omega, by omega, by omega, by omega, by omega, by omega,
              Or.inr (Or.inr ⟨by omega, by omega⟩), ?_, ?_, hpermA, hFA⟩
            · intro p h1 h2 h3
              by_cases hpi : p < i
              · exact hDA p h1 hpi
              · have : tmpA.get p < mid := hsu3 p (by omega) (by omega)
                omega
            · intro p h1 h2 h3
              exact hEgtj1 p (by omega) h2
          · omega
      · -- the j-branch is skipped: j1 = i - 1 and the next call exits
        have hj1eq : j1 = i - 1 := by omega
        obtain ⟨hsu1, hsu2, hsu3, hsu4⟩ :=
          scanUp_spec tmp mid j1 ((j1 - i + 1).toNat + 1) i (by omega)
        have hi1eq : scanUp ((j1 - i + 1).toNat + 1) tmp mid i j1 = i := by omega
        have hiterC : partIter tmp mid index i j = (tmp, index, i, j1) := by
          simp only [partIter]
          rw [← hj1def, if_neg hA]
          dsimp only
          rw [hi1eq, if_neg (by omega)]
        have hcall : partLoop fuel (partIter tmp mid index i j).1 mid
            (partIter tmp mid index i j).2.1 (partIter tmp mid index i j).2.2.1
            (partIter tmp mid index i j).2.2.2 =
            partLoop fuel tmp mid index i j1 := by
          rw [hiterC]
        rw [hcall]
        apply ih
        · refine ⟨by omega, by omega, by omega, by omega, by omega, by omega, by omega, ?_,
            hD, ?_, hP, hF⟩
          · rcases hc with ⟨hx, hli⟩ | ⟨hx, hi, hj, hlr⟩ | ⟨hx, hji⟩
            · exact Or.inl ⟨hx, hli⟩
            · exact Or.inr (Or.inr ⟨by omega, by omega⟩)
            · omega
          · intro p h1 h2 h3
            by_cases hpj : p ≤ j
            · exact le_of_lt (hsd3 p h1 hpj)
            · exact hE p (by omega) h2 h3
        · omega
    · rw [if_neg hij]
      exact part_exit mid left right tmp0 tmp index i j inv (by omega)

-- ----------------------------------------------------------------
-- Rank selection in sorted order
-- ----------------------------------------------------------------

theorem sortedNth_perm (A B : List Nat) (h : A.Perm B) (k : Nat) :
    sortedNth A k = sortedNth B k := by
  unfold sortedNth
  rw [List.eq_of_perm_of_sorted
    ((List.perm_insertionSort _ A).trans (h.trans (List.perm_insertionSort _ B).symm))
    (List.sorted_insertionSort _ A) (List.sorted_insertionSort _ B)]

theorem insertionSort_split (A B : List Nat) (m : Nat)
    (hA : ∀ x ∈ A, x ≤ m) (hB : ∀ x ∈ B, m ≤ x) :
    List.insertionSort (· ≤ ·) (A ++ m :: B) =
      List.insertionSort (· ≤ ·) A ++ m :: List.insertionSort (· ≤ ·) B := by
  have hperm : (List.insertionSort (· ≤ ·) (A ++ m :: B)).Perm
      (List.insertionSort (· ≤ ·) A ++ m :: List.insertionSort (· ≤ ·) B) :=
    (List.perm_insertionSort _ (A ++ m :: B)).trans
      (List.Perm.append (List.perm_insertionSort _ A).symm
        ((List.perm_insertionSort _ B).symm.cons m))
  have hs1 : List.Sorted (· ≤ ·) (List.insertionSort (· ≤ ·) (A ++ m :: B)) :=
    List.sorted_insertionSort _ _
  have hs2 : List.Sorted (· ≤ ·)
      (List.insertionSort (· ≤ ·) A ++ m :: List.insertionSort (· ≤ ·) B) := by
    refine List.pairwise_append.2 ⟨List.sorted_insertionSort _ A, ?_, ?_⟩
    · refine List.sorted_cons.2 ⟨?_, List.sorted_insertionSort _ B⟩
      intro b hb
      exact hB b ((List.perm_insertionSort _ B).mem_iff.1 hb)
    · intro x hx y hy
      have hxm : x ≤ m := hA x ((List.perm_insertionSort _ A).mem_iff.1 hx)
      rcases List.mem_cons.1 hy with rfl | hy'
      · exact hxm
      · exact hxm.trans (hB y ((List.perm_insertionSort _ B).mem_iff.1 hy'))
  exact List.eq_of_perm_of_sorted hperm hs1 hs2

theorem length_insertionSort (A : List Nat) :
    (List.insertionSort (· ≤ ·) A).length = A.length :=
  (List.perm_insertionSort _ A).length_eq

theorem sortedNth_append_left (A B : List Nat) (m k : Nat)
    (hA : ∀ x ∈ A, x ≤ m) (hB : ∀ x ∈ B, m ≤ x) (h1 : 1 ≤ k) (h2 : k ≤ A.length) :
    sortedNth (A ++ m :: B) k = sortedNth A k := by
  unfold sortedNth
  rw [insertionSort_split A B m hA hB,
    List.getD_append _ _ _ _ (by rw [length_insertionSort]; omega)]

theorem sortedNth_append_mid (A B : List Nat) (m : Nat)
    (hA : ∀ x ∈ A, x ≤ m) (hB : ∀ x ∈ B, m ≤ x) :
    sortedNth (A ++ m :: B) (A.length + 1) = m := by
  unfold sortedNth
  rw [insertionSort_split A B m hA hB,
    List.getD_append_right _ _ _ _ (by rw [length_insertionSort]; omega)]
  rw [length_insertionSort, show A.length + 1 - 1 - A.length = 0 by omega]
  rfl

theorem sortedNth_append_right (A B : List Nat) (m k : Nat)
    (hA : ∀ x ∈ A, x ≤ m) (hB : ∀ x ∈ B, m ≤ x) (h1 : A.length + 2 ≤ k) :
    sortedNth (A ++ m :: B) k = sortedNth B (k - A.length - 1) := by
  unfold sortedNth
  rw [insertionSort_split A B m hA hB,
    List.getD_append_right _ _ _ _ (by rw [length_insertionSort]; omega)]
  rw [length_insertionSort, show k - 1 - A.length = (k - A.length - 2) + 1 by omega]
  rw [List.getD_cons_succ, show k - A.length - 1 - 1 = k - A.length - 2 by omega]

theorem winL_self (f : Arr Nat) (a : Int) : winL f a a = [f.get a] := by
  unfold winL
  rw [intRange_cons (le_refl a), intRange_empty (by omega)]
  rfl

theorem sortedNth_singleton (v : Nat) : sortedNth [v] 1 = v := rfl

-- ----------------------------------------------------------------
-- The target ranks
-- ----------------------------------------------------------------

theorem pRank_pos (n q : Nat) : 1 ≤ pRank n q := by
  unfold pRank
  omega

theorem pRank_le (n : Nat) (hn : 1 ≤ n) (q : Nat) (hq : q < 5) : pRank n q ≤ n := by
  have h5 : q = 0 ∨ q = 1 ∨ q = 2 ∨ q = 3 ∨ q = 4 := by omega
  rcases h5 with rfl | rfl | rfl | rfl | rfl <;>
    simp only [pRank, List.getD_cons_zero, List.getD_cons_succ] <;> omega

theorem pRank_mono (n : Nat) (q q' : Nat) (h1 : q ≤ q') (h2 : q' < 5) :
    pRank n q ≤ pRank n q' := by
  have h5 : q = 0 ∨ q = 1 ∨ q = 2 ∨ q = 3 ∨ q = 4 := by omega
  have h5' : q' = 0 ∨ q' = 1 ∨ q' = 2 ∨ q' = 3 ∨ q' = 4 := by omega
  rcases h5 with rfl | rfl | rfl | rfl | rfl <;>
    rcases h5' with rfl | rfl | rfl | rfl | rfl <;>
    simp only [pRank, List.getD_cons_zero, List.getD_cons_succ] <;> omega

-- ----------------------------------------------------------------
-- The select step: answer loop, partition phase, rank bookkeeping
-- ----------------------------------------------------------------

/-- The value the algorithm must leave in `_ans[q]`: the element of rank
`_ask[q]` (as set by `calc`) in the sorted order of the copied window. -/
def rankTarget (X : List Nat) (n : Nat) (q : Int) : Nat :=
  sortedNth X (pRank n q.toNat)

theorem ansLoop_spec (left : Int) :
    ∀ (k : Nat) (qleft qright : Int) (st : CalcSt), (qright + 1 - qleft).toNat = k →
      (∀ q, qleft ≤ q → q ≤ qright → st.ask.get q = 1) →
      ∃ st1, ansLoop st left qleft qright = some st1 ∧
        st1.tmp = st.tmp ∧ st1.mid_temp = st.mid_temp ∧ st1.ask = st.ask ∧
        st1.log = st.log ++ (intRange qleft qright).map (fun q => (q, st.tmp.get left)) ∧
        (∀ p, st1.ans.get p =
          if qleft ≤ p ∧ p ≤ qright then (st.tmp.get left : Int) else st.ans.get p) := by
  intro k
  induction k with
  | zero =>
    intro qleft qright st hk h1
    refine ⟨st, ?_, rfl, rfl, rfl, ?_, ?_⟩
    · unfold ansLoop
      rw [intRange_empty (by omega)]
      rfl
    · rw [intRange_empty (by omega)]
      simp
    · intro p
      rw [if_neg (by omega)]
  | succ k ih =>
    intro qleft qright st hk h1
    have hql : qleft ≤ qright := by omega
    obtain ⟨st1, heq, htmp, hmt, hask, hlog, hans⟩ :=
      ih (qleft + 1) qright
        { st with ans := updI st.ans qleft (st.tmp.get left : Int),
                  log := st.log ++ [(qleft, st.tmp.get left)] }
        (by omega)
        (fun q hq1 hq2 => h1 q (by omega) hq2)
    have hstep : ansLoop st left qleft qright =
        ansLoop { st with ans := updI st.ans qleft (st.tmp.get left : Int),
                          log := st.log ++ [(qleft, st.tmp.get left)] }
          left (qleft + 1) qright := by
      unfold ansLoop
      rw [intRange_cons hql, List.foldlM_cons]
      rw [if_pos (h1 qleft (le_refl _) hql)]
      rfl
    refine ⟨st1, hstep.trans heq, htmp, hmt, hask, ?_, ?_⟩
    · rw [hlog, intRange_cons hql, List.map_cons]
      show (st.log ++ [(qleft, st.tmp.get left)]) ++ _ = _
      rw [List.append_assoc, List.singleton_append]
    · intro p
      rw [hans p]
      by_cases hp : p = qleft
      · subst hp
        rw [if_neg (by omega), if_pos (by omega)]
        show (updI st.ans p (st.tmp.get left : Int)).get p = _
        rw [updI_get_self]
      · by_cases hin : qleft + 1 ≤ p ∧ p ≤ qright
        · rw [if_pos hin, if_pos (by omega)]
        · rw [if_neg hin, if_neg (by omega)]
          show (updI st.ans qleft (st.tmp.get left : Int)).get p = st.ans.get p
          rw [updI_get_ne _ _ _ hp]

theorem selPartition_spec (tmp : Arr Nat) (mid : Nat) (left right : Int)
    (h0 : 0 ≤ left) (hlr : left ≤ right)
    (hmem : ∃ p, left ≤ p ∧ p ≤ right ∧ tmp.get p = mid) :
    left ≤ (selPartition tmp mid left right).2 ∧
    (selPartition tmp mid left right).2 ≤ right ∧
    (selPartition tmp mid left right).1.get (selPartition tmp mid left right).2 = mid ∧
    (∀ p, left ≤ p → p < (selPartition tmp mid left right).2 →
      (selPartition tmp mid left right).1.get p ≤ mid) ∧
    (∀ p, (selPartition tmp mid left right).2 < p → p ≤ right →
      mid ≤ (selPartition tmp mid left right).1.get p) ∧
    (winL (selPartition tmp mid left right).1 left right).Perm (winL tmp left right) ∧
    (∀ p, p < left ∨ right < p → (selPartition tmp mid left right).1.get p = tmp.get p) := by
  obtain ⟨h1, h2, h3⟩ :=
    pivotScan_spec tmp mid right ((right - left).toNat + 2) left (by omega) hmem
  dsimp only [selPartition]
  set index0 := pivotScan ((right - left).toNat + 2) tmp mid left right with hidx0
  have hc : winL (upd tmp index0 mid) left right = winL tmp left right := by
    apply winL_congr
    intro p _ _
    by_cases hp : p = index0
    · subst hp
      rw [upd_get_self, h3]
    · rw [upd_get_ne _ _ _ hp]
  have hinv : PartInv mid left right tmp (upd tmp index0 (tmp.get left)) left left right := by
    refine ⟨le_refl _, by omega, le_refl _, by omega, by omega, le_refl _, hlr,
      Or.inr (Or.inl ⟨rfl, rfl, rfl, hlr⟩), ?_, ?_, ?_, ?_⟩
    · intro p hp1 hp2 _
      omega
    · intro p hp1 hp2 _
      omega
    · exact (hole_move_perm tmp mid h1 h2 (le_refl left) hlr).trans (by rw [hc])
    · intro p hp
      exact upd_get_ne _ _ _ (by omega)
  have hout := partLoop_spec mid left right tmp ((right - left).toNat + 2)
    (upd tmp index0 (tmp.get left)) left left right hinv (by omega)
  obtain ⟨hl, hr, hlo, hhi, hperm, hframe⟩ := hout
  set r := partLoop ((right - left).toNat + 2) (upd tmp index0 (tmp.get left)) mid
    left left right with hrdef
  refine ⟨hl, hr, ?_, ?_, ?_, hperm, ?_⟩
  · show (upd r.1 r.2 mid).get r.2 = mid
    rw [upd_get_self]
  · intro p hp1 hp2
    show (upd r.1 r.2 mid).get p ≤ mid
    rw [upd_get_ne _ _ _ (by omega)]
    exact hlo p hp1 hp2
  · intro p hp1 hp2
    show mid ≤ (upd r.1 r.2 mid).get p
    rw [upd_get_ne _ _ _ (by omega)]
    exact hhi p hp1 hp2
  · intro p hp
    show (upd r.1 r.2 mid).get p = tmp.get p
    rw [upd_get_ne _ _ _ (by omega)]
    exact hframe p hp

theorem selRanks_spec (ask : Arr Int) (qleft qright now : Int) (hq : qleft ≤ qright) :
    qleft ≤ (selRanks ask qleft qright now).2.1 ∧
    (selRanks ask qleft qright now).2.1 ≤ qright + 1 ∧
    (selRanks ask qleft qright now).2.1 ≤ (selRanks ask qleft qright now).2.2 ∧
    (selRanks ask qleft qright now).2.2 ≤ qright + 1 ∧
    (∀ p, qleft ≤ p → p < (selRanks ask qleft qright now).2.1 → ask.get p < now) ∧
    ((selRanks ask qleft qright now).2.1 ≤ qright →
      ¬ ask.get (selRanks ask qleft qright now).2.1 < now) ∧
    (∀ p, (selRanks ask qleft qright now).2.1 ≤ p →
      p < (selRanks ask qleft qright now).2.2 → ask.get p = now) ∧
    ((selRanks ask qleft qright now).2.2 ≤ qright →
      ¬ ask.get (selRanks ask qleft qright now).2.2 = now) ∧
    (∀ p, (selRanks ask qleft qright now).1.get p =
      if (selRanks ask qleft qright now).2.1 ≤ p ∧ p < (selRanks ask qleft qright now).2.2
        then 1
      else if (selRanks ask qleft qright now).2.1 ≤ p ∧ p ≤ qright then ask.get p - now
      else ask.get p) := by
  obtain ⟨hs1, hs2, hs3, hs4⟩ :=
    scanAskLo_spec ask qright now ((qright - qleft + 1).toNat + 1) qleft (by omega)
  dsimp only [selRanks]
  set i := scanAskLo ((qright - qleft + 1).toNat + 1) ask qright qleft now with hidef
  have hile : i ≤ qright + 1 := by omega
  set ask1 := (intRange i qright).foldl
    (fun (a : Arr Int) (q : Int) => updI a q (a.get q - now)) ask with hask1
  have hsub : ∀ p, ask1.get p = if i ≤ p ∧ p ≤ qright then ask.get p - now else ask.get p :=
    fun p => sub_foldl_get ask i qright now p
  obtain ⟨hz1, hz2, hz3, hz4, hz5⟩ :=
    zeroBump_spec qright ((qright - i + 1).toNat + 1) ask1 i (by omega)
  set zb := zeroBump ((qright - i + 1).toNat + 1) ask1 qright i with hzb
  have hjle : zb.2 ≤ qright + 1 := by omega
  refine ⟨hs1, hile, hz1, hjle, hs3, hs4, ?_, ?_, ?_⟩
  · intro p hp1 hp2
    have h0 := hz3 p hp1 hp2
    rw [hsub p, if_pos ⟨hp1, by omega⟩] at h0
    omega
  · intro hle h0
    have := hz4 hle
    rw [hsub zb.2, if_pos ⟨hz1, hle⟩] at this
    omega
  · intro p
    rw [hz5 p]
    by_cases hin : i ≤ p ∧ p < zb.2
    · rw [if_pos hin, if_pos hin]
      have h0 := hz3 p hin.1 hin.2
      rw [hsub p] at h0 ⊢
      rw [if_pos ⟨hin.1, by omega⟩] at h0 ⊢
      omega
    · rw [if_neg hin, if_neg hin, hsub p]

-- ----------------------------------------------------------------
-- The task measure and its strict decrease
-- ----------------------------------------------------------------

/-- `3 ^ (window size)`: the potential of one pending task. -/
def tWeight (t : CalcTask) : Nat := 3 ^ (t.right - t.left + 1).toNat

/-- Total potential of the pending work queue; it strictly decreases at
every `select` call, which bounds the number of processed tasks. -/
def taskMeasure (tasks : List CalcTask) : Nat := (tasks.map tWeight).sum

theorem tWeight_pos (t : CalcTask) : 1 ≤ tWeight t :=
  Nat.one_le_pow _ _ (by norm_num)

theorem taskMeasure_cons (t : CalcTask) (l : List CalcTask) :
    taskMeasure (t :: l) = tWeight t + taskMeasure l := by
  simp [taskMeasure]

theorem taskMeasure_append (l1 l2 : List CalcTask) :
    taskMeasure (l1 ++ l2) = taskMeasure l1 + taskMeasure l2 := by
  simp [taskMeasure]

theorem measure_split_lt (a b : Nat) (h : 1 ≤ a + b) :
    3 ^ a + 3 + 3 ^ b < 3 ^ (a + b + 1) := by
  by_cases ha : a = 0
  · subst ha
    have h1 : (3 : Nat) ^ 1 ≤ 3 ^ b := Nat.pow_le_pow_right (by norm_num) (by omega)
    have h2 : (3 : Nat) ^ (b + 1) = 3 ^ b * 3 := pow_succ 3 b
    simp only [Nat.zero_add] at h ⊢
    omega
  · by_cases hb : b = 0
    · subst hb
      have h1 : (3 : Nat) ^ 1 ≤ 3 ^ a := Nat.pow_le_pow_right (by norm_num) (by omega)
      have h2 : (3 : Nat) ^ (a + 1) = 3 ^ a * 3 := pow_succ 3 a
      simp only [Nat.add_zero] at h ⊢
      omega
    · have h1 : (3 : Nat) ^ a ≤ 3 ^ (a + b - 1) :=
        Nat.pow_le_pow_right (by norm_num) (by omega)
      have h2 : (3 : Nat) ^ b ≤ 3 ^ (a + b - 1) :=
        Nat.pow_le_pow_right (by norm_num) (by omega)
      have h3 : (3 : Nat) ^ 1 ≤ 3 ^ (a + b - 1) :=
        Nat.pow_le_pow_right (by norm_num) (by omega)
      have h4 : (3 : Nat) ^ (a + b + 1) = 3 ^ (a + b - 1) * 9 := by
        rw [show a + b + 1 = (a + b - 1) + 2 by omega, pow_add]
        norm_num
      have h5 : 1 ≤ (3 : Nat) ^ (a + b - 1) := Nat.one_le_pow _ _ (by norm_num)
      omega

-- ----------------------------------------------------------------
-- The worklist invariant
-- ----------------------------------------------------------------

/-- A pending task `(left, right, qleft, qright)` is well-formed w.r.t. the
original copied window `X` of length `n`: its window sits inside `[0, n)`,
its tag range inside `[0, 4]`, and for each of its tags `q` the current
`_ask[q]` is a valid 1-based rank into the task's window whose order
statistic there equals the window-global target of `q`; moreover `_ask` is
monotone along the tag range. -/
structure TaskOK (X : List Nat) (n : Nat) (tmp : Arr Nat) (ask : Arr Int)
    (left right qleft qright : Int) : Prop where
  hl : 0 ≤ left
  hlr : left ≤ right
  hrn : right < (n : Int)
  hql : 0 ≤ qleft
  hqr : qright ≤ 4
  hask1 : ∀ q, qleft ≤ q → q ≤ qright → 1 ≤ ask.get q
  hask2 : ∀ q, qleft ≤ q → q ≤ qright → ask.get q ≤ right - left + 1
  htarget : ∀ q, qleft ≤ q → q ≤ qright →
    sortedNth (winL tmp left right) (ask.get q).toNat = rankTarget X n q
  hmono : ∀ q q', qleft ≤ q → q ≤ q' → q' ≤ qright → ask.get q ≤ ask.get q'

/-- Two pending tasks with nonempty tag ranges have disjoint tag ranges and
disjoint windows. -/
def tDisj (t1 t2 : CalcTask) : Prop :=
  t1.qleft ≤ t1.qright → t2.qleft ≤ t2.qright →
    (t1.qright < t2.qleft ∨ t2.qright < t1.qleft) ∧
    (t1.right < t2.left ∨ t2.right < t1.left)

/-- The invariant of the task-processing loop of `calc`: every pending task
with work to do is well-formed, pending tasks are pairwise disjoint, every
tag is either pending in some task or already answered in the store record
with its target value, record keys are distinct, recorded stores are valid,
pending tags are unanswered, and `_ans` equals the replay of the record over
the `_ans` array `a0` the run started from. -/
structure LoopInv (X : List Nat) (n : Nat) (a0 : Arr Int) (st : CalcSt)
    (tasks : List CalcTask) : Prop where
  htask : ∀ t ∈ tasks, t.qleft ≤ t.qright →
    TaskOK X n st.tmp st.ask t.left t.right t.qleft t.qright
  hdisj : tasks.Pairwise tDisj
  hcover : ∀ q : Int, 0 ≤ q → q ≤ 4 →
    (∃ t ∈ tasks, t.qleft ≤ q ∧ q ≤ t.qright) ∨ (q, rankTarget X n q) ∈ st.log
  hkeys : (st.log.map Prod.fst).Nodup
  hlogval : ∀ e ∈ st.log, 0 ≤ e.1 ∧ e.1 ≤ 4 ∧ e.2 = rankTarget X n e.1
  hlogdisj : ∀ t ∈ tasks, ∀ q, t.qleft ≤ q → q ≤ t.qright → ∀ v, (q, v) ∉ st.log
  hans : ∀ q, st.ans.get q = (applyLog a0 st.log).get q

/-- `TaskOK` only looks at the arrays through the task's window and tag
range. -/
theorem TaskOK_of_agree {X : List Nat} {n : Nat} {tmp tmp' : Arr Nat}
    {ask ask' : Arr Int} {left right qleft qright : Int}
    (hok : TaskOK X n tmp ask left right qleft qright)
    (htmp : ∀ p, left ≤ p → p ≤ right → tmp'.get p = tmp.get p)
    (hask : ∀ q, qleft ≤ q → q ≤ qright → ask'.get q = ask.get q) :
    TaskOK X n tmp' ask' left right qleft qright := by
  obtain ⟨h1, h2, h3, h4, h5, h6, h7, h8, h9⟩ := hok
  refine ⟨h1, h2, h3, h4, h5, ?_, ?_, ?_, ?_⟩
  · intro q hq1 hq2
    rw [hask q hq1 hq2]
    exact h6 q hq1 hq2
  · intro q hq1 hq2
    rw [hask q hq1 hq2]
    exact h7 q hq1 hq2
  · intro q hq1 hq2
    rw [hask q hq1 hq2, winL_congr htmp]
    exact h8 q hq1 hq2
  · intro q q' hq1 hq2 hq3
    rw [hask q hq1 (by omega), hask q' (by omega) hq3]
    exact h9 q q' hq1 hq2 hq3

/-- Processing a task whose tag range is empty drops it and changes
nothing. -/
theorem select_spec_empty (X : List Nat) (n : Nat) (a0 : Arr Int) (st : CalcSt)
    (t : CalcTask) (rest : List CalcTask)
    (inv : LoopInv X n a0 st (t :: rest)) (hq : t.qleft > t.qright) :
    ∃ st1 newts, select st t = some (st1, newts) ∧
      LoopInv X n a0 st1 (rest ++ newts) ∧
      taskMeasure (rest ++ newts) < taskMeasure (t :: rest) := by
  obtain ⟨htask, hdisj, hcover, hkeys, hlogval, hlogdisj, hans⟩ := inv
  have hdrest : rest.Pairwise tDisj := (List.pairwise_cons.1 hdisj).2
  have hsel : select st t = some (st, []) := by
    unfold select
    rw [if_pos hq]
  refine ⟨st, [], hsel, ?_, ?_⟩
  · rw [List.append_nil]
    refine ⟨?_, hdrest, ?_, hkeys, hlogval, ?_, hans⟩
    · intro t' ht' hne
      exact htask t' (List.mem_cons_of_mem _ ht') hne
    · intro q h1 h2
      rcases hcover q h1 h2 with ⟨t', ht', hq1, hq2⟩ | hlog
      · rcases List.mem_cons.1 ht' with rfl | ht''
        · omega
        · exact Or.inl ⟨t', ht'', hq1, hq2⟩
      · exact Or.inr hlog
    · intro t' ht'
      exact hlogdisj t' (List.mem_cons_of_mem _ ht')
  · rw [List.append_nil, taskMeasure_cons]
    have := tWeight_pos t
    omega

/-- Processing a task with a one-element window answers all of its tags:
every `_ask` rank in a singleton window is 1, so the assertion cannot fire,
each tag's `_ans` store writes the target value, and the task spawns no
children. -/
theorem select_spec_single (X : List Nat) (n : Nat) (a0 : Arr Int) (st : CalcSt)
    (t : CalcTask) (rest : List CalcTask)
    (inv : LoopInv X n a0 st (t :: rest)) (hq : ¬ t.qleft > t.qright)
    (hsing : t.left = t.right) :
    ∃ st1 newts, select st t = some (st1, newts) ∧
      LoopInv X n a0 st1 (rest ++ newts) ∧
      taskMeasure (rest ++ newts) < taskMeasure (t :: rest) := by
  obtain ⟨htask, hdisj, hcover, hkeys, hlogval, hlogdisj, hans⟩ := inv
  have hdhead : ∀ t' ∈ rest, tDisj t t' := (List.pairwise_cons.1 hdisj).1
  have hdrest : rest.Pairwise tDisj := (List.pairwise_cons.1 hdisj).2
  have hq' : t.qleft ≤ t.qright := by omega
  have hok := htask t (List.mem_cons_self t rest) hq'
  have hall1 : ∀ q, t.qleft ≤ q → q ≤ t.qright → st.ask.get q = 1 := by
    intro q h1 h2
    have ha := hok.hask1 q h1 h2
    have hb := hok.hask2 q h1 h2
    omega
  obtain ⟨st1, hAL, htmp1, hmt1, hask1', hlog1, hans1⟩ :=
    ansLoop_spec t.left ((t.qright + 1 - t.qleft).toNat) t.qleft t.qright st rfl hall1
  have hsel : select st t = some (st1, []) := by
    unfold select
    rw [if_neg hq, if_pos hsing, hAL]
    rfl
  have hval : ∀ q, t.qleft ≤ q → q ≤ t.qright → st.tmp.get t.left = rankTarget X n q := by
    intro q h1 h2
    have ht := hok.htarget q h1 h2
    rw [← hsing, winL_self, hall1 q h1 h2, show ((1 : Int)).toNat = 1 from rfl,
      sortedNth_singleton] at ht
    exact ht
  have hek : (((intRange t.qleft t.qright).map
      (fun q => (q, st.tmp.get t.left))).map Prod.fst) = intRange t.qleft t.qright := by
    rw [List.map_map,
      show (Prod.fst ∘ fun q : Int => (q, st.tmp.get t.left)) = id from rfl, List.map_id]
  have hndents : (((intRange t.qleft t.qright).map
      (fun q => (q, st.tmp.get t.left))).map Prod.fst).Nodup := by
    rw [hek]
    exact intRange_nodup t.qleft t.qright
  refine ⟨st1, [], hsel, ?_, ?_⟩
  · rw [List.append_nil]
    refine ⟨?_, hdrest, ?_, ?_, ?_, ?_, ?_⟩
    · intro t' ht' hne
      rw [htmp1, hask1']
      exact htask t' (List.mem_cons_of_mem _ ht') hne
    · intro q h1 h2
      rcases hcover q h1 h2 with ⟨t', ht', hq1, hq2⟩ | hlog
      · rcases List.mem_cons.1 ht' with rfl | ht''
        · refine Or.inr ?_
          rw [hlog1]
          refine List.mem_append_right _ ?_
          exact List.mem_map.2 ⟨q, mem_intRange.2 ⟨hq1, hq2⟩, by rw [hval q hq1 hq2]⟩
        · exact Or.inl ⟨t', ht'', hq1, hq2⟩
      · refine Or.inr ?_
        rw [hlog1]
        exact List.mem_append_left _ hlog
    · rw [hlog1, List.map_append]
      refine List.Nodup.append hkeys hndents ?_
      intro a ha1 ha2
      rw [hek] at ha2
      obtain ⟨hb1, hb2⟩ := mem_intRange.1 ha2
      obtain ⟨e, he, heq⟩ := List.mem_map.1 ha1
      have hae : (a, e.2) = e := by
        rw [← heq]
      exact hlogdisj t (List.mem_cons_self t rest) a hb1 hb2 e.2 (hae ▸ he)
    · intro e he
      rw [hlog1] at he
      rcases List.mem_append.1 he with hold | hnew
      · exact hlogval e hold
      · obtain ⟨q, hqm, hqe⟩ := List.mem_map.1 hnew
        obtain ⟨hb1, hb2⟩ := mem_intRange.1 hqm
        subst hqe
        refine ⟨?_, ?_, ?_⟩
        · show (0 : Int) ≤ q
          have := hok.hql
          omega
        · show q ≤ 4
          have := hok.hqr
          omega
        · show st.tmp.get t.left = rankTarget X n q
          exact hval q hb1 hb2
    · intro t' ht' q hq1 hq2 v hv
      rw [hlog1] at hv
      rcases List.mem_append.1 hv with hold | hnew
      · exact hlogdisj t' (List.mem_cons_of_mem _ ht') q hq1 hq2 v hold
      · obtain ⟨q', hq'm, hq'e⟩ := List.mem_map.1 hnew
        obtain ⟨hb1, hb2⟩ := mem_intRange.1 hq'm
        have hqq : q' = q := congrArg Prod.fst hq'e
        subst hqq
        have hdd := (hdhead t' ht' hq' (le_trans hq1 hq2)).1
        omega
    · intro p
      rw [hans1 p, hlog1, applyLog_append]
      by_cases hin : t.qleft ≤ p ∧ p ≤ t.qright
      · rw [if_pos hin]
        rw [applyLog_get_of_mem _ _ p (st.tmp.get t.left) hndents
          (List.mem_map.2 ⟨p, mem_intRange.2 hin, rfl⟩)]
      · have hne : ∀ v, (p, v) ∉ (intRange t.qleft t.qright).map
            (fun q => (q, st.tmp.get t.left)) := by
          intro v hv
          obtain ⟨q', hq'm, hq'e⟩ := List.mem_map.1 hv
          obtain ⟨hb1, hb2⟩ := mem_intRange.1 hq'm
          have : q' = p := congrArg Prod.fst hq'e
          omega
        rw [if_neg hin, hans p, applyLog_get_of_forall_ne _ _ p hne]
  · rw [List.append_nil, taskMeasure_cons]
    have := tWeight_pos t
    omega

/-- Processing a task with a window of at least two elements: the pivot is
found, the partition stays inside the window, the rank bookkeeping splits
the tag range at `i` and `j`, and the three spawned children are again
well-formed, pairwise disjoint, cover the parent's tags and are strictly
lighter in total. -/
theorem select_spec_spawn (X : List Nat) (n : Nat) (a0 : Arr Int) (st : CalcSt)
    (t : CalcTask) (rest : List CalcTask)
    (inv : LoopInv X n a0 st (t :: rest)) (hq : ¬ t.qleft > t.qright)
    (hsing : ¬ t.left = t.right) :
    ∃ st1 newts, select st t = some (st1, newts) ∧
      LoopInv X n a0 st1 (rest ++ newts) ∧
      taskMeasure (rest ++ newts) < taskMeasure (t :: rest) := by
  obtain ⟨htask, hdisj, hcover, hkeys, hlogval, hlogdisj, hans⟩ := inv
  have hdhead : ∀ t' ∈ rest, tDisj t t' := (List.pairwise_cons.1 hdisj).1
  have hdrest : rest.Pairwise tDisj := (List.pairwise_cons.1 hdisj).2
  have hq' : t.qleft ≤ t.qright := by omega
  have hok := htask t (List.mem_cons_self t rest) hq'
  have hokl := hok.hl
  have hoklr := hok.hlr
  have hokrn := hok.hrn
  have hokql := hok.hql
  have hokqr := hok.hqr
  have hlt : t.left < t.right := lt_of_le_of_ne hoklr hsing
  set mt0 := (intRange t.left t.right).foldl
    (fun (m : Arr Nat) (i : Int) => upd m i (st.tmp.get i)) st.mid_temp with hmt0
  obtain ⟨mt1, mid, hfm, s, hs1, hs2, hs3⟩ :=
    find_mid_spec ((t.right - t.left).toNat + 1) mt0 t.left t.right hokl hoklr (by omega)
  have hPiv : selPivot st t = some (mt1, mid) := by
    unfold selPivot
    rw [← hmt0]
    exact hfm
  have hmidmem : ∃ p, t.left ≤ p ∧ p ≤ t.right ∧ st.tmp.get p = mid := by
    refine ⟨s, hs1, hs2, ?_⟩
    rw [hs3, hmt0, copy_foldl_get, if_pos ⟨hs1, hs2⟩]
  obtain ⟨hp1, hp2, hp3, hp4, hp5, hp6, hp7⟩ :=
    selPartition_spec st.tmp mid t.left t.right hokl hoklr hmidmem
  obtain ⟨hr1, hr2, hr3, hr4, hr5, hr6, hr7, hr8, hr9⟩ :=
    selRanks_spec st.ask t.qleft t.qright
      ((selPartition st.tmp mid t.left t.right).2 - t.left + 1) hq'
  set pr := selPartition st.tmp mid t.left t.right with hpr
  set rk := selRanks st.ask t.qleft t.qright (pr.2 - t.left + 1) with hrk
  have hsel : select st t = some ({ st with tmp := pr.1, mid_temp := mt1, ask := rk.1 },
      [⟨t.left, pr.2 - 1, t.qleft, rk.2.1 - 1⟩,
       ⟨pr.2, pr.2, rk.2.1, rk.2.2 - 1⟩,
       ⟨pr.2 + 1, t.right, rk.2.2, t.qright⟩]) := by
    unfold select
    rw [if_neg hq, if_neg hsing, hPiv]
    rfl
  have hidx1 : t.left ≤ pr.2 := hp1
  have hidx2 : pr.2 ≤ t.right := hp2
  have hask_keep : ∀ q, q < rk.2.1 → rk.1.get q = st.ask.get q := by
    intro q h
    rw [hr9 q, if_neg (by omega), if_neg (by omega)]
  have hask_one : ∀ q, rk.2.1 ≤ q → q < rk.2.2 → rk.1.get q = 1 := by
    intro q h1 h2
    rw [hr9 q, if_pos ⟨h1, h2⟩]
  have hask_sub : ∀ q, rk.2.2 ≤ q → q ≤ t.qright →
      rk.1.get q = st.ask.get q - (pr.2 - t.left + 1) := by
    intro q h1 h2
    rw [hr9 q, if_neg (by omega), if_pos ⟨by omega, h2⟩]
  have hask_out : ∀ q, q < t.qleft ∨ t.qright < q → rk.1.get q = st.ask.get q := by
    intro q h
    rcases h with h | h
    · rw [hr9 q, if_neg (by omega), if_neg (by omega)]
    · rw [hr9 q, if_neg (by omega), if_neg (by omega)]
  have hlow : ∀ q, t.qleft ≤ q → q < rk.2.1 → st.ask.get q < pr.2 - t.left + 1 := hr5
  have hmid_now : ∀ q, rk.2.1 ≤ q → q < rk.2.2 →
      st.ask.get q = pr.2 - t.left + 1 := hr7
  have hhigh : ∀ q, rk.2.2 ≤ q → q ≤ t.qright →
      pr.2 - t.left + 1 < st.ask.get q := by
    intro q h1 h2
    have hne := hr8 (by omega)
    have hge := hr6 (by omega)
    have hm1 : st.ask.get rk.2.1 ≤ st.ask.get rk.2.2 :=
      hok.hmono _ _ (by omega) hr3 (by omega)
    have hm2 : st.ask.get rk.2.2 ≤ st.ask.get q :=
      hok.hmono _ _ (by omega) h1 h2
    omega
  have hsplit' : winL pr.1 t.left t.right =
      winL pr.1 t.left (pr.2 - 1) ++ mid :: winL pr.1 (pr.2 + 1) t.right := by
    rw [winL_split pr.1 hp1 hp2, hp3]
  have hA : ∀ x ∈ winL pr.1 t.left (pr.2 - 1), x ≤ mid := by
    intro x hx
    obtain ⟨p, hpa, hpb, rfl⟩ := mem_winL.1 hx
    exact hp4 p hpa (by omega)
  have hB : ∀ x ∈ winL pr.1 (pr.2 + 1) t.right, mid ≤ x := by
    intro x hx
    obtain ⟨p, hpa, hpb, rfl⟩ := mem_winL.1 hx
    exact hp5 p (by omega) hpb
  have hAlen : (winL pr.1 t.left (pr.2 - 1)).length = (pr.2 - t.left).toNat := by
    rw [winL_length]
    omega
  have htargetB : ∀ q, t.qleft ≤ q → q ≤ t.qright →
      sortedNth (winL pr.1 t.left t.right) (st.ask.get q).toNat = rankTarget X n q := by
    intro q h1 h2
    rw [sortedNth_perm _ _ hp6]
    exact hok.htarget q h1 h2
  have hmid_target : ∀ q, rk.2.1 ≤ q → q < rk.2.2 → mid = rankTarget X n q := by
    intro q h1 h2
    have heq := htargetB q (by omega) (by omega)
    rw [hmid_now q h1 h2] at heq
    rw [← heq, hsplit']
    have hmm := sortedNth_append_mid (winL pr.1 t.left (pr.2 - 1))
      (winL pr.1 (pr.2 + 1) t.right) mid hA hB
    rw [hAlen] at hmm
    rw [show (pr.2 - t.left + 1).toNat = (pr.2 - t.left).toNat + 1 by omega]
    exact hmm.symm
  have hokc1 : t.qleft ≤ rk.2.1 - 1 →
      TaskOK X n pr.1 rk.1 t.left (pr.2 - 1) t.qleft (rk.2.1 - 1) := by
    intro hne
    have hnow2 : 2 ≤ pr.2 - t.left + 1 := by
      have ha := hlow t.qleft (le_refl _) (by omega)
      have hb := hok.hask1 t.qleft (le_refl _) hq'
      omega
    refine ⟨hokl, by omega, by omega, hokql, by omega, ?_, ?_, ?_, ?_⟩
    · intro q h1 h2
      rw [hask_keep q (by omega)]
      exact hok.hask1 q h1 (by omega)
    · intro q h1 h2
      rw [hask_keep q (by omega)]
      have := hlow q h1 (by omega)
      omega
    · intro q h1 h2
      rw [hask_keep q (by omega)]
      have hkb1 := hok.hask1 q h1 (by omega)
      have hkb2 := hlow q h1 (by omega)
      rw [← htargetB q h1 (by omega), hsplit']
      exact (sortedNth_append_left _ _ mid _ hA hB (by omega)
        (by rw [hAlen]; omega)).symm
    · intro q q' h1 h2 h3
      rw [hask_keep q (by omega), hask_keep q' (by omega)]
      exact hok.hmono q q' h1 h2 (by omega)
  have hokc2 : rk.2.1 ≤ rk.2.2 - 1 →
      TaskOK X n pr.1 rk.1 pr.2 pr.2 rk.2.1 (rk.2.2 - 1) := by
    intro hne
    refine ⟨by omega, le_refl _, by omega, by omega, by omega, ?_, ?_, ?_, ?_⟩
    · intro q h1 h2
      rw [hask_one q h1 (by omega)]
    · intro q h1 h2
      rw [hask_one q h1 (by omega)]
      omega
    · intro q h1 h2
      rw [hask_one q h1 (by omega), winL_self, hp3,
        show ((1 : Int)).toNat = 1 from rfl, sortedNth_singleton]
      exact hmid_target q h1 (by omega)
    · intro q q' h1 h2 h3
      rw [hask_one q h1 (by omega), hask_one q' (by omega) (by omega)]
  have hokc3 : rk.2.2 ≤ t.qright →
      TaskOK X n pr.1 rk.1 (pr.2 + 1) t.right rk.2.2 t.qright := by
    intro hne
    have hsz : pr.2 < t.right := by
      have ha := hhigh rk.2.2 (le_refl _) hne
      have hb := hok.hask2 rk.2.2 (by omega) hne
      omega
    refine ⟨by omega, by omega, hokrn, by omega, hokqr, ?_, ?_, ?_, ?_⟩
    · intro q h1 h2
      rw [hask_sub q h1 h2]
      have := hhigh q h1 h2
      omega
    · intro q h1 h2
      rw [hask_sub q h1 h2]
      have := hok.hask2 q (by omega) h2
      omega
    · intro q h1 h2
      rw [hask_sub q h1 h2]
      have hgt := hhigh q h1 h2
      have hle := hok.hask2 q (by omega) h2
      rw [← htargetB q (by omega) h2, hsplit']
      rw [sortedNth_append_right _ _ mid _ hA hB (by rw [hAlen]; omega)]
      congr 1
      rw [hAlen]
      omega
    · intro q q' h1 h2 h3
      rw [hask_sub q h1 (by omega), hask_sub q' (by omega) h3]
      have := hok.hmono q q' (by omega) h2 h3
      omega
  have hcross : ∀ t' ∈ rest, ∀ (cl cr cql cqr : Int),
      t.left ≤ cl → cr ≤ t.right → t.qleft ≤ cql → cqr ≤ t.qright →
      tDisj t' ⟨cl, cr, cql, cqr⟩ := by
    intro t' ht'' cl cr cql cqr h1 h2 h3 h4 hne1 hne2
    have hne2' : cql ≤ cqr := hne2
    have hdd := hdhead t' ht'' hq' hne1
    refine ⟨?_, ?_⟩
    · show t'.qright < cql ∨ cqr < t'.qleft
      rcases hdd.1 with h | h
      · exact Or.inr (by omega)
      · exact Or.inl (by omega)
    · show t'.right < cl ∨ cr < t'.left
      rcases hdd.2 with h | h
      · exact Or.inr (by omega)
      · exact Or.inl (by omega)
  refine ⟨_, _, hsel, ?_, ?_⟩
  · refine ⟨?_, ?_, ?_, hkeys, hlogval, ?_, hans⟩
    · intro t' ht' hne
      rcases List.mem_append.1 ht' with ht'' | hchild
      · have hdd := hdhead t' ht'' hq' hne
        show TaskOK X n pr.1 rk.1 t'.left t'.right t'.qleft t'.qright
        refine TaskOK_of_agree (htask t' (List.mem_cons_of_mem _ ht'') hne) ?_ ?_
        · intro p hp1' hp2'
          refine hp7 p ?_
          rcases hdd.2 with h | h
          · right
            omega
          · left
            omega
        · intro q' hq1' hq2'
          refine hask_out q' ?_
          rcases hdd.1 with h | h
          · right
            omega
          · left
            omega
      · simp only [List.mem_cons, List.not_mem_nil, or_false] at hchild
        rcases hchild with rfl | rfl | rfl
        · exact hokc1 hne
        · exact hokc2 hne
        · exact hokc3 hne
    · refine List.pairwise_append.2 ⟨hdrest, ?_, ?_⟩
      · refine List.pairwise_cons.2 ⟨?_, List.pairwise_cons.2
          ⟨?_, List.pairwise_cons.2 ⟨?_, List.Pairwise.nil⟩⟩⟩
        · intro c hc
          simp only [List.mem_cons, List.not_mem_nil, or_false] at hc
          rcases hc with rfl | rfl
          · intro h1 h2
            refine ⟨Or.inl ?_, Or.inl ?_⟩
            · show rk.2.1 - 1 < rk.2.1
              omega
            · show pr.2 - 1 < pr.2
              omega
          · intro h1 h2
            refine ⟨Or.inl ?_, Or.inl ?_⟩
            · show rk.2.1 - 1 < rk.2.2
              omega
            · show pr.2 - 1 < pr.2 + 1
              omega
        · intro c hc
          simp only [List.mem_cons, List.not_mem_nil, or_false] at hc
          rcases hc with rfl
          intro h1 h2
          refine ⟨Or.inl ?_, Or.inl ?_⟩
          · show rk.2.2 - 1 < rk.2.2
            omega
          · show pr.2 < pr.2 + 1
            omega
        · intro c hc
          cases hc
      · intro t' ht'' c hc
        simp only [List.mem_cons, List.not_mem_nil, or_false] at hc
        rcases hc with rfl | rfl | rfl
        · exact hcross t' ht'' _ _ _ _ (le_refl _) (by omega) (le_refl _) (by omega)
        · exact hcross t' ht'' _ _ _ _ hidx1 hidx2 (by omega) (by omega)
        · exact hcross t' ht'' _ _ _ _ (by omega) (le_refl _) (by omega) (le_refl _)
    · intro q h1 h2
      rcases hcover q h1 h2 with ⟨t', ht', hq1, hq2⟩ | hlog
      · rcases List.mem_cons.1 ht' with heq | ht''
        · rw [heq] at hq1 hq2
          by_cases hc1 : q < rk.2.1
          · refine Or.inl ⟨⟨t.left, pr.2 - 1, t.qleft, rk.2.1 - 1⟩,
              List.mem_append_right _ (List.mem_cons_self _ _), ?_, ?_⟩
            · show t.qleft ≤ q
              exact hq1
            · show q ≤ rk.2.1 - 1
              omega
          · by_cases hc2 : q < rk.2.2
            · refine Or.inl ⟨⟨pr.2, pr.2, rk.2.1, rk.2.2 - 1⟩,
                List.mem_append_right _ (List.mem_cons_of_mem _ (List.mem_cons_self _ _)),
                ?_, ?_⟩
              · show rk.2.1 ≤ q
                omega
              · show q ≤ rk.2.2 - 1
                omega
            · refine Or.inl ⟨⟨pr.2 + 1, t.right, rk.2.2, t.qright⟩,
                List.mem_append_right _ (List.mem_cons_of_mem _
                  (List.mem_cons_of_mem _ (List.mem_cons_self _ _))), ?_, ?_⟩
              · show rk.2.2 ≤ q
                omega
              · show q ≤ t.qright
                exact hq2
        · exact Or.inl ⟨t', List.mem_append_left _ ht'', hq1, hq2⟩
      · exact Or.inr hlog
    · intro t' ht' q hq1 hq2 v hv
      rcases List.mem_append.1 ht' with ht'' | hchild
      · exact hlogdisj t' (List.mem_cons_of_mem _ ht'') q hq1 hq2 v hv
      · simp only [List.mem_cons, List.not_mem_nil, or_false] at hchild
        rcases hchild with rfl | rfl | rfl
        · have ha : q ≤ rk.2.1 - 1 := hq2
          exact hlogdisj t (List.mem_cons_self t rest) q hq1 (by omega) v hv
        · have ha : rk.2.1 ≤ q := hq1
          have hb : q ≤ rk.2.2 - 1 := hq2
          exact hlogdisj t (List.mem_cons_self t rest) q (by omega) (by omega) v hv
        · have ha : rk.2.2 ≤ q := hq1
          exact hlogdisj t (List.mem_cons_self t rest) q (by omega) hq2 v hv
  · rw [taskMeasure_append, taskMeasure_cons t rest]
    have e1 : (pr.2 - 1 - t.left + 1).toNat = (pr.2 - t.left).toNat := by omega
    have e3 : (t.right - (pr.2 + 1) + 1).toNat = (t.right - pr.2).toNat := by omega
    have e4 : (t.right - t.left + 1).toNat
        = (pr.2 - t.left).toNat + (t.right - pr.2).toNat + 1 := by omega
    have hsum : taskMeasure [(⟨t.left, pr.2 - 1, t.qleft, rk.2.1 - 1⟩ : CalcTask),
        ⟨pr.2, pr.2, rk.2.1, rk.2.2 - 1⟩, ⟨pr.2 + 1, t.right, rk.2.2, t.qright⟩]
        = 3 ^ (pr.2 - t.left).toNat + 3 + 3 ^ (t.right - pr.2).toNat := by
      simp only [taskMeasure, tWeight, List.map_cons, List.map_nil, List.sum_cons,
        List.sum_nil]
      rw [e1, e3, show (pr.2 - pr.2 + 1).toNat = 1 by omega, pow_one]
      ring
    have hw : tWeight t = 3 ^ ((pr.2 - t.left).toNat + (t.right - pr.2).toNat + 1) := by
      unfold tWeight
      rw [e4]
    rw [hsum, hw]
    have hlt2 := measure_split_lt (pr.2 - t.left).toNat (t.right - pr.2).toNat (by omega)
    calc taskMeasure rest + (3 ^ (pr.2 - t.left).toNat + 3 + 3 ^ (t.right - pr.2).toNat)
        = (3 ^ (pr.2 - t.left).toNat + 3 + 3 ^ (t.right - pr.2).toNat) + taskMeasure rest :=
          Nat.add_comm _ _
      _ < 3 ^ ((pr.2 - t.left).toNat + (t.right - pr.2).toNat + 1) + taskMeasure rest :=
          Nat.add_lt_add_right hlt2 _

/-- One `select` call preserves the loop invariant and strictly decreases
the task measure; in particular it never hits an assertion. -/
theorem select_spec (X : List Nat) (n : Nat) (a0 : Arr Int) (st : CalcSt)
    (t : CalcTask) (rest : List CalcTask)
    (inv : LoopInv X n a0 st (t :: rest)) :
    ∃ st1 newts, select st t = some (st1, newts) ∧
      LoopInv X n a0 st1 (rest ++ newts) ∧
      taskMeasure (rest ++ newts) < taskMeasure (t :: rest) := by
  by_cases hq : t.qleft > t.qright
  · exact select_spec_empty X n a0 st t rest inv hq
  · by_cases hsing : t.left = t.right
    · exact select_spec_single X n a0 st t rest inv hq hsing
    · exact select_spec_spawn X n a0 st t rest inv hq hsing

/-- The task loop of `calc` terminates (the measure bounds the number of
processed tasks) and ends in a state satisfying the invariant with no
pending tasks. -/
theorem selLoop_spec (X : List Nat) (n : Nat) (a0 : Arr Int) :
    ∀ (fuel : Nat) (st : CalcSt) (tasks : List CalcTask),
      LoopInv X n a0 st tasks → taskMeasure tasks ≤ fuel →
      ∃ st1, selLoop fuel st tasks = some st1 ∧ LoopInv X n a0 st1 [] := by
  intro fuel
  induction fuel with
  | zero =>
    intro st tasks inv hm
    cases tasks with
    | nil => exact ⟨st, rfl, inv⟩
    | cons t rest =>
      exfalso
      have := tWeight_pos t
      rw [taskMeasure_cons] at hm
      omega
  | succ fuel ih =>
    intro st tasks inv hm
    cases tasks with
    | nil => exact ⟨st, rfl, inv⟩
    | cons t rest =>
      obtain ⟨st1, newts, hsel, inv1, hltm⟩ := select_spec X n a0 st t rest inv
      have hstep : selLoop (fuel + 1) st (t :: rest) =
          match select st t with
          | none => none
          | some (st1, newts) => selLoop fuel st1 (rest ++ newts) := rfl
      rw [hstep, hsel]
      exact ih st1 (rest ++ newts) inv1 (by omega)

-- ----------------------------------------------------------------
-- calc: master correctness
-- ----------------------------------------------------------------

/-- `calc()` with a nonempty buffer: the run terminates without hitting an
assertion and ends with every tag answered in the store record with its
target value — the order statistic of the copied sample window at the rank
computed from the percentage table — and with `_ans` equal to the replay of
the record over the starting `_ans` array. -/
theorem calcRun_spec (s : PercState) (h1 : 1 ≤ s.tail) :
    ∃ st, calcRun s = some st ∧
      (st.log.map Prod.fst).Nodup ∧
      (∀ e ∈ st.log, 0 ≤ e.1 ∧ e.1 ≤ 4 ∧
        e.2 = rankTarget (sampleWindow s) (tmpNum s) e.1) ∧
      (∀ q : Int, 0 ≤ q → q ≤ 4 →
        (q, rankTarget (sampleWindow s) (tmpNum s) q) ∈ st.log) ∧
      (∀ q, st.ans.get q = (applyLog s.ans st.log).get q) := by
  have hC : COUNTER_PERCENTILE_COUNT = 5 := rfl
  have hn1 : 1 ≤ tmpNum s := by
    unfold tmpNum MAX_QUEUE_LENGTH
    omega
  set nn := tmpNum s with hnn
  set tmp1 := (List.range nn).foldl
    (fun (f : Arr Nat) (i : Nat) => upd f (i : Int) (s.queue i)) s.tmp with htmp1
  set ask1 := updI (updI (updI (updI (updI s.ask COUNTER_PERCENTILE_50
      ((nn * 500 / 1000 : Nat) + 1))
      COUNTER_PERCENTILE_90 ((nn * 900 / 1000 : Nat) + 1))
      COUNTER_PERCENTILE_95 ((nn * 950 / 1000 : Nat) + 1))
      COUNTER_PERCENTILE_99 ((nn * 990 / 1000 : Nat) + 1))
      COUNTER_PERCENTILE_999 ((nn * 999 / 1000 : Nat) + 1) with hask1def
  have htmp1get : ∀ p, tmp1.get p =
      if 0 ≤ p ∧ p < (nn : Int) then s.queue p.toNat else s.tmp.get p := by
    intro p
    rw [htmp1]
    exact copyN_foldl_get s.queue s.tmp nn p
  have hX : winL tmp1 0 ((nn : Int) - 1) = sampleWindow s := by
    unfold winL sampleWindow intRange
    rw [← hnn, show ((nn : Int) - 1 + 1 - 0).toNat = nn by omega, List.map_map]
    apply List.map_congr_left
    intro u hu
    rw [List.mem_range] at hu
    show tmp1.get (0 + (u : Int)) = s.queue u
    rw [htmp1get, if_pos ⟨by omega, by omega⟩]
    congr 1
    omega
  have hask1get : ∀ q : Int, 0 ≤ q → q ≤ 4 →
      ask1.get q = ((pRank nn q.toNat : Nat) : Int) := by
    intro q hq1 hq2
    have h5 : q = 0 ∨ q = 1 ∨ q = 2 ∨ q = 3 ∨ q = 4 := by omega
    rw [hask1def]
    rcases h5 with rfl | rfl | rfl | rfl | rfl
    · rw [updI_get, if_neg (by decide), updI_get, if_neg (by decide), updI_get,
        if_neg (by decide), updI_get, if_neg (by decide), updI_get, if_pos (by decide),
        show pRank nn ((0 : Int)).toNat = nn * 500 / 1000 + 1 from rfl]
      push_cast
      ring
    · rw [updI_get, if_neg (by decide), updI_get, if_neg (by decide), updI_get,
        if_neg (by decide), updI_get, if_pos (by decide),
        show pRank nn ((1 : Int)).toNat = nn * 900 / 1000 + 1 from rfl]
      push_cast
      ring
    · rw [updI_get, if_neg (by decide), updI_get, if_neg (by decide), updI_get,
        if_pos (by decide),
        show pRank nn ((2 : Int)).toNat = nn * 950 / 1000 + 1 from rfl]
      push_cast
      ring
    · rw [updI_get, if_neg (by decide), updI_get, if_pos (by decide),
        show pRank nn ((3 : Int)).toNat = nn * 990 / 1000 + 1 from rfl]
      push_cast
      ring
    · rw [updI_get, if_pos (by decide),
        show pRank nn ((4 : Int)).toNat = nn * 999 / 1000 + 1 from rfl]
      push_cast
      ring
  have hinv0 : LoopInv (winL tmp1 0 ((nn : Int) - 1)) nn s.ans
      ⟨tmp1, s.mid_temp, ask1, s.ans, []⟩
      [⟨0, (nn : Int) - 1, 0, COUNTER_PERCENTILE_COUNT - 1⟩] := by
    refine ⟨?_, ?_, ?_, ?_, ?_, ?_, ?_⟩
    · intro t' ht' hne
      simp only [List.mem_cons, List.not_mem_nil, or_false] at ht'
      subst ht'
      show TaskOK _ nn tmp1 ask1 0 ((nn : Int) - 1) 0 (COUNTER_PERCENTILE_COUNT - 1)
      refine ⟨le_refl _, by omega, by omega, le_refl _, by omega, ?_, ?_, ?_, ?_⟩
      · intro q hh1 hh2
        rw [hask1get q hh1 (by omega)]
        have := pRank_pos nn q.toNat
        omega
      · intro q hh1 hh2
        rw [hask1get q hh1 (by omega)]
        have := pRank_le nn hn1 q.toNat (by omega)
        omega
      · intro q hh1 hh2
        rw [hask1get q hh1 (by omega),
          show (((pRank nn q.toNat : Nat) : Int)).toNat = pRank nn q.toNat by omega]
        rfl
      · intro q q' hh1 hh2 hh3
        rw [hask1get q hh1 (by omega), hask1get q' (by omega) (by omega)]
        have := pRank_mono nn q.toNat q'.toNat (by omega) (by omega)
        omega
    · exact List.pairwise_cons.2 ⟨fun c hc => absurd hc (List.not_mem_nil c),
        List.Pairwise.nil⟩
    · intro q hh1 hh2
      refine Or.inl ⟨⟨0, (nn : Int) - 1, 0, COUNTER_PERCENTILE_COUNT - 1⟩,
        List.mem_cons_self _ _, ?_, ?_⟩
      · show (0 : Int) ≤ q
        exact hh1
      · show q ≤ COUNTER_PERCENTILE_COUNT - 1
        omega
    · exact List.nodup_nil
    · intro e he
      cases he
    · intro t' ht' q hq1 hq2 v hv
      cases hv
    · intro q
      rfl
  have hfuel : taskMeasure [⟨0, (nn : Int) - 1, 0, COUNTER_PERCENTILE_COUNT - 1⟩]
      ≤ 3 ^ nn := by
    rw [taskMeasure_cons]
    show 3 ^ (((nn : Int) - 1 - 0 + 1).toNat) + taskMeasure [] ≤ 3 ^ nn
    rw [show ((nn : Int) - 1 - 0 + 1).toNat = nn by omega,
      show taskMeasure [] = 0 from rfl]
    omega
  obtain ⟨st1, hloop, invF⟩ := selLoop_spec (winL tmp1 0 ((nn : Int) - 1)) nn s.ans
    (3 ^ nn) ⟨tmp1, s.mid_temp, ask1, s.ans, []⟩
    [⟨0, (nn : Int) - 1, 0, COUNTER_PERCENTILE_COUNT - 1⟩] hinv0 hfuel
  have hrun : calcRun s = some st1 := by
    unfold calcRun
    exact hloop
  obtain ⟨htF, hdF, hcovF, hkeysF, hlogvalF, hldF, hansF⟩ := invF
  have hmemF : ∀ q : Int, 0 ≤ q → q ≤ 4 →
      (q, rankTarget (winL tmp1 0 ((nn : Int) - 1)) nn q) ∈ st1.log := by
    intro q hh1 hh2
    rcases hcovF q hh1 hh2 with ⟨t', ht', _, _⟩ | h
    · cases ht'
    · exact h
  refine ⟨st1, hrun, hkeysF, ?_, ?_, hansF⟩
  · intro e he
    rw [← hX]
    exact hlogvalF e he
  · intro q hh1 hh2
    rw [← hX]
    exact hmemF q hh1 hh2

/-- `calc()` on a counter with at least one recorded sample: it terminates,
leaves `_tail` and `_queue` unchanged, and leaves in `_ans[q]` the order
statistic of the sample window at 1-based rank `(int)(tmp_num * p) + 1`. -/
theorem calc_correct (s : PercState) (h1 : 1 ≤ s.tail) :
    ∃ s', calc' s = some s' ∧ s'.tail = s.tail ∧ s'.queue = s.queue ∧
      (∀ q : Int, 0 ≤ q → q ≤ 4 →
        s'.ans.get q
          = ((sortedNth (sampleWindow s) (pRank (tmpNum s) q.toNat) : Nat) : Int)) := by
  obtain ⟨st1, hrun, hk, hval, hmem, hans⟩ := calcRun_spec s h1
  refine ⟨{ s with tmp := st1.tmp, mid_temp := st1.mid_temp, ask := st1.ask, ans := st1.ans }, ?_, rfl, rfl, ?_⟩
  · unfold calc'
    rw [if_neg (by omega), hrun]
    rfl
  · intro q hh1 hh2
    show st1.ans.get q = _
    rw [hans q, applyLog_get_of_mem st1.log s.ans q _ hk (hmem q hh1 hh2)]
    rfl

-- ----------------------------------------------------------------
-- Recording samples: tail, queue contents, sample window
-- ----------------------------------------------------------------

theorem set_tail (s : PercState) (v : Nat) : (set s v).tail = s.tail + 1 := rfl

theorem set_queue (s : PercState) (v : Nat) (i : Nat) :
    (set s v).queue i = if i = s.tail % MAX_QUEUE_LENGTH then v else s.queue i := rfl

theorem recordAll_tail (xs : List Nat) :
    ∀ s : PercState, (recordAll xs s).tail = s.tail + xs.length := by
  induction xs with
  | nil =>
    intro s
    show s.tail = s.tail + 0
    omega
  | cons x xs ih =>
    intro s
    show (recordAll xs (set s x)).tail = s.tail + (x :: xs).length
    rw [ih (set s x), set_tail, List.length_cons]
    omega

theorem recordAll_ans (xs : List Nat) :
    ∀ s : PercState, (recordAll xs s).ans = s.ans := by
  induction xs with
  | nil => intro s; rfl
  | cons x xs ih =>
    intro s
    show (recordAll xs (set s x)).ans = s.ans
    rw [ih (set s x)]
    rfl

theorem recordAll_append (a b : List Nat) (s : PercState) :
    recordAll (a ++ b) s = recordAll b (recordAll a s) := by
  unfold recordAll
  exact List.foldl_append _ _ _ _

theorem recordAll_queue_nowrap (xs : List Nat) :
    ∀ (s : PercState) (j : Nat), s.tail + xs.length ≤ MAX_QUEUE_LENGTH →
      (recordAll xs s).queue j =
        if s.tail ≤ j ∧ j < s.tail + xs.length then xs.getD (j - s.tail) 0
        else s.queue j := by
  induction xs with
  | nil =>
    intro s j h
    show s.queue j = _
    rw [List.length_nil, if_neg (by omega)]
  | cons x xs ih =>
    intro s j h
    rw [List.length_cons] at h
    show (recordAll xs (set s x)).queue j = _
    rw [List.length_cons, ih (set s x) j (by rw [set_tail]; omega), set_tail]
    have hM : MAX_QUEUE_LENGTH = 50000 := rfl
    have hmod : s.tail % MAX_QUEUE_LENGTH = s.tail := Nat.mod_eq_of_lt (by omega)
    by_cases hj : s.tail + 1 ≤ j ∧ j < s.tail + 1 + xs.length
    · rw [if_pos hj, if_pos (by omega),
        show j - s.tail = (j - (s.tail + 1)) + 1 by omega, List.getD_cons_succ]
    · rw [if_neg hj, set_queue, hmod]
      by_cases hj2 : j = s.tail
      · subst hj2
        rw [if_pos rfl, if_pos (by omega), Nat.sub_self, List.getD_cons_zero]
      · rw [if_neg hj2, if_neg (by omega)]

/-- Recording `n ≤ C` samples into a fresh counter fills the first `n`
queue slots in order, so the sample window is exactly the recorded list. -/
theorem sampleWindow_recordAll (xs : List Nat) (s0 : PercState) (h0 : s0.tail = 0)
    (hle : xs.length ≤ MAX_QUEUE_LENGTH) :
    sampleWindow (recordAll xs s0) = xs := by
  unfold sampleWindow tmpNum
  rw [recordAll_tail, h0, show min (0 + xs.length) MAX_QUEUE_LENGTH = xs.length by omega]
  refine List.ext_getElem (by simp) ?_
  intro i hi1 hi2
  simp only [List.getElem_map, List.getElem_range]
  rw [recordAll_queue_nowrap xs s0 i (by omega), h0, if_pos (by omega), Nat.sub_zero]
  simp only [List.length_map, List.length_range] at hi1
  exact List.getD_eq_getElem xs 0 (by omega)

theorem list_eq_map_getD (l : List Nat) :
    (List.range l.length).map (fun i => l.getD i 0) = l := by
  refine List.ext_getElem (by simp) ?_
  intro i hi1 hi2
  simp only [List.getElem_map, List.getElem_range]
  exact List.getD_eq_getElem l 0 hi2

theorem recordAll_queue_wrap (zs : List Nat) :
    ∀ (s : PercState) (j : Nat), j < MAX_QUEUE_LENGTH → zs.length ≤ MAX_QUEUE_LENGTH →
      (recordAll zs s).queue j =
        if (j + MAX_QUEUE_LENGTH - s.tail % MAX_QUEUE_LENGTH) % MAX_QUEUE_LENGTH
            < zs.length
        then zs.getD
          ((j + MAX_QUEUE_LENGTH - s.tail % MAX_QUEUE_LENGTH) % MAX_QUEUE_LENGTH) 0
        else s.queue j := by
  induction zs with
  | nil =>
    intro s j hj hlen
    show s.queue j = _
    rw [List.length_nil, if_neg (by omega)]
  | cons x zs ih =>
    intro s j hj hlen
    rw [List.length_cons] at hlen
    show (recordAll zs (set s x)).queue j = _
    rw [List.length_cons, ih (set s x) j hj (by omega), set_tail, set_queue]
    have hM : MAX_QUEUE_LENGTH = 50000 := rfl
    rw [hM] at hj hlen ⊢
    by_cases hc : (j + 50000 - s.tail % 50000) % 50000 = 0
    · have hj0 : j = s.tail % 50000 := by omega
      have hoff1 : (j + 50000 - (s.tail + 1) % 50000) % 50000 = 50000 - 1 := by omega
      rw [hoff1, if_neg (show ¬ 50000 - 1 < zs.length by omega), if_pos hj0,
        if_pos (show (j + 50000 - s.tail % 50000) % 50000 < zs.length + 1 by omega),
        hc, List.getD_cons_zero]
    · have hj0 : ¬ j = s.tail % 50000 := by omega
      have hoff1 : (j + 50000 - (s.tail + 1) % 50000) % 50000
          = (j + 50000 - s.tail % 50000) % 50000 - 1 := by omega
      rw [hoff1, if_neg hj0]
      by_cases hin : (j + 50000 - s.tail % 50000) % 50000 - 1 < zs.length
      · have hgd : (x :: zs).getD ((j + 50000 - s.tail % 50000) % 50000) 0
            = zs.getD ((j + 50000 - s.tail % 50000) % 50000 - 1) 0 := by
          rw [show (j + 50000 - s.tail % 50000) % 50000
            = ((j + 50000 - s.tail % 50000) % 50000 - 1) + 1 by omega,
            List.getD_cons_succ]
          congr 2
          omega
        rw [if_pos hin,
          if_pos (show (j + 50000 - s.tail % 50000) % 50000 < zs.length + 1 by omega),
          hgd]
      · rw [if_neg hin,
          if_neg (show ¬ (j + 50000 - s.tail % 50000) % 50000 < zs.length + 1 by omega)]

/-- The index shift `j ↦ (j + C - r) % C` permutes `range C`. -/
theorem map_mod_shift_perm (r : Nat) (hr : r < MAX_QUEUE_LENGTH) :
    ((List.range MAX_QUEUE_LENGTH).map
      (fun j => (j + MAX_QUEUE_LENGTH - r) % MAX_QUEUE_LENGTH)).Perm
      (List.range MAX_QUEUE_LENGTH) := by
  have hM : MAX_QUEUE_LENGTH = 50000 := rfl
  rw [hM] at hr ⊢
  refine (List.perm_ext_iff_of_nodup ?_ (List.nodup_range _)).2 ?_
  · refine List.Nodup.map_on ?_ (List.nodup_range _)
    intro a ha b hb hab
    rw [List.mem_range] at ha hb
    omega
  · intro x
    simp only [List.mem_map, List.mem_range]
    constructor
    · rintro ⟨j, hjr, rfl⟩
      omega
    · intro hx
      exact ⟨(x + r) % 50000, by omega, by omega⟩

/-- The queue after recording a full buffer of samples, as a shifted read
of the recorded list. -/
theorem recordAll_full_window (zs : List Nat) (s1 : PercState)
    (hzlen : zs.length = MAX_QUEUE_LENGTH) :
    (List.range MAX_QUEUE_LENGTH).map (recordAll zs s1).queue
      = ((List.range MAX_QUEUE_LENGTH).map
          (fun j => (j + MAX_QUEUE_LENGTH - s1.tail % MAX_QUEUE_LENGTH)
            % MAX_QUEUE_LENGTH)).map (fun i => zs.getD i 0) := by
  rw [List.map_map]
  apply List.map_congr_left
  intro j hj
  rw [List.mem_range] at hj
  simp only [Function.comp_apply]
  rw [recordAll_queue_wrap zs s1 j hj (by omega),
    if_pos (by rw [hzlen]; exact Nat.mod_lt _ (by rw [show MAX_QUEUE_LENGTH = 50000 from rfl]; omega))]

/-- Recording more than `C` samples into a fresh counter: the sample window
is a permutation of the most recent `C` samples. -/
theorem sampleWindow_recordAll_wrap (xs : List Nat) (s0 : PercState) (h0 : s0.tail = 0)
    (hlen : MAX_QUEUE_LENGTH ≤ xs.length) :
    (sampleWindow (recordAll xs s0)).Perm
      (xs.drop (xs.length - MAX_QUEUE_LENGTH)) := by
  have hM : MAX_QUEUE_LENGTH = 50000 := rfl
  set zs := xs.drop (xs.length - MAX_QUEUE_LENGTH) with hzs
  have hzlen : zs.length = MAX_QUEUE_LENGTH := by
    rw [hzs, List.length_drop]
    omega
  have hsplit : xs = xs.take (xs.length - MAX_QUEUE_LENGTH) ++ zs :=
    (List.take_append_drop _ _).symm
  set s1 := recordAll (xs.take (xs.length - MAX_QUEUE_LENGTH)) s0 with hs1
  have hs1tail : s1.tail = xs.length - MAX_QUEUE_LENGTH := by
    rw [hs1, recordAll_tail, h0, List.length_take]
    omega
  have hrec : recordAll xs s0 = recordAll zs s1 := by
    conv_lhs => rw [hsplit]
    exact recordAll_append _ _ s0
  have htail2 : (recordAll zs s1).tail = s1.tail + MAX_QUEUE_LENGTH := by
    rw [recordAll_tail, hzlen]
  have htmpnum : tmpNum (recordAll zs s1) = MAX_QUEUE_LENGTH := by
    unfold tmpNum
    rw [htail2]
    omega
  rw [hrec]
  unfold sampleWindow
  rw [htmpnum]
  rw [recordAll_full_window zs s1 hzlen]
  refine ((map_mod_shift_perm (s1.tail % MAX_QUEUE_LENGTH)
    (Nat.mod_lt _ (by omega))).map (fun i => zs.getD i 0)).trans ?_
  rw [show List.range MAX_QUEUE_LENGTH = List.range zs.length by rw [hzlen],
    list_eq_map_getD]

-- ----------------------------------------------------------------
-- The claims
-- ----------------------------------------------------------------

/-- C1: for every sequence of `n` samples with `1 ≤ n ≤ C` recorded into a
fresh counter (no wraparound) followed by one completed recompute with no
concurrent writers, `get_percentile` on each of the five tags returns the
element at 1-based rank `⌊n·p⌋ + 1` of the sorted multiset of the samples
(the `double` products `n·p` truncate to exactly `n·⌊1000p⌋/1000` for all
`n ≤ 50000`). -/
theorem claim_C1 (xs : List Nat) (q0 : Nat → Nat) (t0 m0 : Arr Nat) (k0 a0 : Arr Int)
    (hlen1 : 1 ≤ xs.length) (hlen2 : xs.length ≤ MAX_QUEUE_LENGTH)
    (tag : Int) (htag1 : 0 ≤ tag) (htag2 : tag ≤ 4) :
    ∃ s', calc' (recordAll xs (init q0 t0 m0 k0 a0)) = some s' ∧
      get_percentile s' tag
        = .ok ((sortedNth xs (pRank xs.length tag.toNat) : Nat) : Int) := by
  have hC : COUNTER_PERCENTILE_COUNT = 5 := rfl
  have h0 : (init q0 t0 m0 k0 a0).tail = 0 := rfl
  have htails : (recordAll xs (init q0 t0 m0 k0 a0)).tail = xs.length := by
    rw [recordAll_tail, h0]
    omega
  have htn : tmpNum (recordAll xs (init q0 t0 m0 k0 a0)) = xs.length := by
    unfold tmpNum
    rw [htails]
    omega
  have hsw : sampleWindow (recordAll xs (init q0 t0 m0 k0 a0)) = xs :=
    sampleWindow_recordAll xs _ h0 hlen2
  obtain ⟨s', hcalc, htail, hqueue, hans⟩ :=
    calc_correct (recordAll xs (init q0 t0 m0 k0 a0)) (by omega)
  refine ⟨s', hcalc, ?_⟩
  unfold get_percentile
  rw [if_neg (by omega), if_neg (by omega), hans tag htag1 htag2, hsw, htn]

theorem claim_C1_witness :
    (1 ≤ ([5, 1, 4, 2, 3] : List Nat).length ∧
      ([5, 1, 4, 2, 3] : List Nat).length ≤ MAX_QUEUE_LENGTH) ∧
    ∃ s', calc' (recordAll [5, 1, 4, 2, 3] zeroState) = some s' ∧
      get_percentile s' 0 = .ok 3 :=
  ⟨⟨by decide, by decide⟩,
    claim_C1 [5, 1, 4, 2, 3] (fun _ => 0) ⟨fun _ => 0⟩ ⟨fun _ => 0⟩ ⟨fun _ => 0⟩
      ⟨fun _ => 0⟩ (by decide) (by decide) 0 (by decide) (by decide)⟩

/-- C2 (counterexample): the five answers are published one `_ans` store at
a time, not as one atomic unit.  Record `[5,5,5]` and recompute (every tag
answers 5); record `[7,7,7]` more and run the recompute body; replaying
only the first of its five `_ans` stores on the previous answers yields
tag 1 = 7 (new epoch) alongside tag 0 = 5 (old epoch) — exactly the mixed
observation the claim rules out, and the state a concurrent reader sees
between the first and second store. -/
theorem claim_C2_counterexample : c2Obs = some (5, 5, 7, 7, 5, 7) := by decide

/-- C2 (amended): what does hold.  Every `_ans` store of a recompute writes
that tag's new-epoch value, so after any prefix of the stores each tag
individually reads either its old value or its new value (never a third
value), and when the run completes all five tags hold the new values. -/
theorem claim_C2_amended (s : PercState) (h1 : 1 ≤ s.tail) :
    ∃ st, calcRun s = some st ∧
      (∀ q, st.ans.get q = (applyLog s.ans st.log).get q) ∧
      ∀ (k : Nat) (q : Int),
        (applyLog s.ans (st.log.take k)).get q = s.ans.get q ∨
        (applyLog s.ans (st.log.take k)).get q = st.ans.get q := by
  obtain ⟨st, hrun, hk, hval, hmem, hans⟩ := calcRun_spec s h1
  refine ⟨st, hrun, hans, ?_⟩
  intro k q
  rcases applyLog_take_get st.log s.ans q k hk with h | h
  · exact Or.inl h
  · exact Or.inr (h.trans (hans q).symm)

theorem claim_C2_amended_witness :
    1 ≤ (set zeroState 5).tail ∧
    ∃ st, calcRun (set zeroState 5) = some st ∧
      (∀ q, st.ans.get q = (applyLog (set zeroState 5).ans st.log).get q) ∧
      ∀ (k : Nat) (q : Int),
        (applyLog (set zeroState 5).ans (st.log.take k)).get q
          = (set zeroState 5).ans.get q ∨
        (applyLog (set zeroState 5).ans (st.log.take k)).get q = st.ans.get q :=
  ⟨by decide, claim_C2_amended (set zeroState 5) (by decide)⟩

/-- C3: the first half of the claim holds — a fresh counter returns the
sentinel −1 for every tag, because `_tail == 0` short-circuits — but the
second half is a code bug: the constructor never initialises `_ans`, so
once a sample has been recorded (`_tail ≠ 0`) but before any recompute,
`get_percentile` returns the indeterminate `_ans[tag]` contents (modelled
by the arbitrary array `a0`), not the −1 sentinel. -/
theorem claim_C3 (q0 : Nat → Nat) (t0 m0 : Arr Nat) (k0 a0 : Arr Int) :
    (∀ tag : Int, get_percentile (init q0 t0 m0 k0 a0) tag = .ok (-1)) ∧
    (∀ v : Nat, ∀ tag : Int, 0 ≤ tag → tag < 5 →
      get_percentile (set (init q0 t0 m0 k0 a0) v) tag = .ok (a0.get tag)) := by
  have hC : COUNTER_PERCENTILE_COUNT = 5 := rfl
  constructor
  · intro tag
    unfold get_percentile
    rw [if_pos (show (init q0 t0 m0 k0 a0).tail = 0 from rfl)]
  · intro v tag h1 h2
    unfold get_percentile
    rw [if_neg (show ¬ ((set (init q0 t0 m0 k0 a0) v).tail = 0) from by
      show ¬ ((0 : Nat) + 1 = 0)
      omega)]
    rw [if_neg (by omega)]
    rfl

theorem claim_C3_witness :
    get_percentile (init (fun _ => 0) ⟨fun _ => 0⟩ ⟨fun _ => 0⟩ ⟨fun _ => 0⟩
      ⟨fun _ => 7⟩) 0 = .ok (-1) ∧
    (0 : Int) ≤ 0 ∧ (0 : Int) < 5 ∧
    get_percentile (set (init (fun _ => 0) ⟨fun _ => 0⟩ ⟨fun _ => 0⟩ ⟨fun _ => 0⟩
      ⟨fun _ => 7⟩) 5) 0 = .ok 7 :=
  ⟨(claim_C3 (fun _ => 0) ⟨fun _ => 0⟩ ⟨fun _ => 0⟩ ⟨fun _ => 0⟩ ⟨fun _ => 7⟩).1 0,
    by decide, by decide,
    (claim_C3 (fun _ => 0) ⟨fun _ => 0⟩ ⟨fun _ => 0⟩ ⟨fun _ => 0⟩ ⟨fun _ => 7⟩).2
      5 0 (by decide) (by decide)⟩

/-- C4 (counterexample): the claim's "for every `k > 0`" fails in the
source at the 32-bit cursor wrap.  For `k = 2^31 + 1 - MAX_QUEUE_LENGTH`
(positive), recording `C + k = 2^31 + 1` samples makes the last `set`'s
pre-increment cursor the wrapped pattern `tailPattern (2^31)`: as an `int`
it reads negative, and the slot index `idx % MAX_QUEUE_LENGTH` it computes
is negative — that store lands outside `_queue`, so the recompute does not
operate on the most recent `C` samples. -/
theorem claim_C4_counterexample :
    0 < 2 ^ 31 + 1 - MAX_QUEUE_LENGTH ∧
    MAX_QUEUE_LENGTH + (2 ^ 31 + 1 - MAX_QUEUE_LENGTH) = 2 ^ 31 + 1 ∧
    toSigned (tailPattern (2 ^ 31)) < 0 ∧
    set32slot (tailPattern (2 ^ 31)) < 0 := by decide

/-- C4 (amended): recording `C + k` samples (`k > 0`) into a fresh counter
and then recomputing yields, for each tag, the percentile computed over
exactly the most recent `C` samples — the first `k` samples are overwritten
and have no influence — provided the total write count `C + k` stays below
`2^31`, the overflow point of the source's `int` write cursor. -/
theorem claim_C4_amended (xs : List Nat) (q0 : Nat → Nat) (t0 m0 : Arr Nat) (k0 a0 : Arr Int)
    (hlen : MAX_QUEUE_LENGTH < xs.length) (hwrap : xs.length < 2 ^ 31)
    (tag : Int) (htag1 : 0 ≤ tag) (htag2 : tag ≤ 4) :
    ∃ s', calc' (recordAll xs (init q0 t0 m0 k0 a0)) = some s' ∧
      get_percentile s' tag
        = .ok ((sortedNth (xs.drop (xs.length - MAX_QUEUE_LENGTH))
            (pRank MAX_QUEUE_LENGTH tag.toNat) : Nat) : Int) := by
  have hC : COUNTER_PERCENTILE_COUNT = 5 := rfl
  have h0 : (init q0 t0 m0 k0 a0).tail = 0 := rfl
  have htails : (recordAll xs (init q0 t0 m0 k0 a0)).tail = xs.length := by
    rw [recordAll_tail, h0]
    omega
  have htn : tmpNum (recordAll xs (init q0 t0 m0 k0 a0)) = MAX_QUEUE_LENGTH := by
    unfold tmpNum
    rw [htails]
    omega
  have hperm := sampleWindow_recordAll_wrap xs (init q0 t0 m0 k0 a0) h0 (by omega)
  obtain ⟨s', hcalc, htail, hqueue, hans⟩ :=
    calc_correct (recordAll xs (init q0 t0 m0 k0 a0)) (by omega)
  refine ⟨s', hcalc, ?_⟩
  unfold get_percentile
  rw [if_neg (by omega), if_neg (by omega), hans tag htag1 htag2, htn,
    sortedNth_perm _ _ hperm]

theorem claim_C4_amended_witness :
    (MAX_QUEUE_LENGTH < (List.replicate 50001 (3 : Nat)).length ∧
      (List.replicate 50001 (3 : Nat)).length < 2 ^ 31) ∧
    ∃ s', calc' (recordAll (List.replicate 50001 3) zeroState) = some s' ∧
      get_percentile s' 0
        = .ok ((sortedNth ((List.replicate 50001 (3 : Nat)).drop
            ((List.replicate 50001 (3 : Nat)).length - MAX_QUEUE_LENGTH))
            (pRank MAX_QUEUE_LENGTH ((0 : Int)).toNat) : Nat) : Int) :=
  ⟨⟨by rw [List.length_replicate]; decide, by rw [List.length_replicate]; decide⟩,
    claim_C4_amended (List.replicate 50001 3) (fun _ => 0) ⟨fun _ => 0⟩ ⟨fun _ => 0⟩
      ⟨fun _ => 0⟩ ⟨fun _ => 0⟩ (by rw [List.length_replicate]; decide)
      (by rw [List.length_replicate]; decide) 0 (by decide) (by decide)⟩

/-- C5 (counterexample): the `_tail == 0` early return precedes the tag
check, so on a counter with no recorded samples an out-of-range tag (here 5)
silently returns the −1 sentinel instead of failing the assertion. -/
theorem claim_C5_counterexample : get_percentile zeroState 5 = .ok (-1) := rfl

/-- C5 (amended): once any sample has been recorded (`_tail ≠ 0`), every tag
outside `[0, COUNTER_PERCENTILE_COUNT)` hits the assertion and no value is
returned. -/
theorem claim_C5_amended (s : PercState) (tag : Int) (h : ¬ s.tail = 0)
    (htag : tag < 0 ∨ COUNTER_PERCENTILE_COUNT ≤ tag) :
    get_percentile s tag = .error () := by
  unfold get_percentile
  rw [if_neg h, if_pos htag]

theorem claim_C5_amended_witness :
    (¬ (set zeroState 5).tail = 0) ∧
    ((5 : Int) < 0 ∨ COUNTER_PERCENTILE_COUNT ≤ 5) ∧
    get_percentile (set zeroState 5) 5 = .error () :=
  ⟨by decide, by decide, claim_C5_amended (set zeroState 5) 5 (by decide) (by decide)⟩

/-- C6 (counterexample): "for every buffer state" fails in the source at
the wrap point of the 32-bit write cursor.  At `_tail = INT_MAX` (pattern
`2^31 - 1`) the fetch-add of `set` wraps: the new cursor reads as `-2^31`,
not the old cursor plus one; and a `set` at the next state (pattern `2^31`)
computes a negative slot index, a store outside the backing array rather
than into slot `W mod C`. -/
theorem claim_C6_counterexample :
    ¬ toSigned (tailPattern (2 ^ 31 - 1 + 1))
        = toSigned (tailPattern (2 ^ 31 - 1)) + 1 ∧
    set32slot (tailPattern (2 ^ 31)) < 0 := by decide

/-- C6 (amended): `set` always succeeds — it is total, with no error result
and no "full" condition in its type — and on every buffer state whose write
cursor has not reached the `int` overflow point (`tail + 1 < 2^31`, the
region where the model's count equals the source's 32-bit cursor) it
increments the cursor by exactly one, stores the value into slot `W mod C`
for the pre-increment cursor `W`, and leaves every other slot of the
backing array unchanged. -/
theorem claim_C6_amended (s : PercState) (v : Nat) (hw : s.tail + 1 < 2 ^ 31) :
    (set s v).tail = s.tail + 1 ∧
    (set s v).queue (s.tail % MAX_QUEUE_LENGTH) = v ∧
    ∀ i, ¬ i = s.tail % MAX_QUEUE_LENGTH → (set s v).queue i = s.queue i := by
  refine ⟨rfl, ?_, ?_⟩
  · rw [set_queue, if_pos rfl]
  · intro i hi
    rw [set_queue, if_neg hi]

theorem claim_C6_amended_witness :
    zeroState.tail + 1 < 2 ^ 31 ∧
    (set zeroState 9).tail = zeroState.tail + 1 ∧
    (set zeroState 9).queue (zeroState.tail % MAX_QUEUE_LENGTH) = 9 ∧
    (set zeroState 9).queue 1 = zeroState.queue 1 :=
  ⟨by decide, (claim_C6_amended zeroState 9 (by decide)).1,
    (claim_C6_amended zeroState 9 (by decide)).2.1,
    (claim_C6_amended zeroState 9 (by decide)).2.2 1 (by decide)⟩

/-- C7: a recompute with `_tail == 0` is a no-op: `calc` returns the state
unchanged (the early return fires before any array is touched) and every
subsequent read still returns the −1 sentinel for every tag. -/
theorem claim_C7 (s : PercState) (h : s.tail = 0) :
    calc' s = some s ∧ ∀ tag : Int, get_percentile s tag = .ok (-1) := by
  constructor
  · unfold calc'
    rw [if_pos h]
  · intro tag
    unfold get_percentile
    rw [if_pos h]

theorem claim_C7_witness :
    zeroState.tail = 0 ∧ calc' zeroState = some zeroState ∧
    get_percentile zeroState 2 = .ok (-1) :=
  ⟨rfl, (claim_C7 zeroState rfl).1, (claim_C7 zeroState rfl).2 2⟩

/-- C8: every unsupported mutation asserts for every argument and state and
produces no result state: `increment`, `decrement` and `add` on the
percentile counter, and `set` on the plain number counter. -/
theorem claim_C8 (sp : PercState) (sn : NumState) (v : Nat) :
    increment sp = .error () ∧ decrement sp = .error () ∧ add sp v = .error () ∧
    perf_counter_number.set sn v = .error () :=
  ⟨rfl, rfl, rfl, rfl⟩

/-- C9: on every counter with at least one recorded sample (so
`1 ≤ tmp_num ≤ 50000`) the recompute terminates: the worklist loop
exhausts the queue after finitely many tasks — each `select` strictly
decreases the measure `Σ 3^(window size)` — and `find_mid`'s recursion
bottoms out, so `calc` returns a state rather than diverging. -/
theorem claim_C9 (s : PercState) (h : 1 ≤ s.tail) :
    ∃ s', calc' s = some s' := by
  obtain ⟨s', hcalc, _, _, _⟩ := calc_correct s h
  exact ⟨s', hcalc⟩

theorem claim_C9_witness :
    1 ≤ (set zeroState 7).tail ∧ ∃ s', calc' (set zeroState 7) = some s' :=
  ⟨by decide, claim_C9 (set zeroState 7) (by decide)⟩

/-- C10: for every scratch-array contents and sub-range `0 ≤ left ≤ right`,
the pivot phase of `select` succeeds and its median-of-medians pivot is a
value occurring in `_tmp[left..right]`; the linear pivot scan stops at an
index within `[left, right]`; and the partition phase keeps the pivot's
final position inside `[left, right]` while leaving every slot outside
`[left, right]` unchanged. -/
theorem claim_C10 (st : CalcSt) (t : CalcTask) (h0 : 0 ≤ t.left)
    (hlr : t.left ≤ t.right) :
    ∃ mt2 mid, selPivot st t = some (mt2, mid) ∧
      (∃ p, t.left ≤ p ∧ p ≤ t.right ∧ st.tmp.get p = mid) ∧
      t.left ≤ pivotScan ((t.right - t.left).toNat + 2) st.tmp mid t.left t.right ∧
      pivotScan ((t.right - t.left).toNat + 2) st.tmp mid t.left t.right ≤ t.right ∧
      t.left ≤ (selPartition st.tmp mid t.left t.right).2 ∧
      (selPartition st.tmp mid t.left t.right).2 ≤ t.right ∧
      ∀ p, p < t.left ∨ t.right < p →
        (selPartition st.tmp mid t.left t.right).1.get p = st.tmp.get p := by
  obtain ⟨mt1, mid, hfm, s', hs1, hs2, hs3⟩ :=
    find_mid_spec ((t.right - t.left).toNat + 1)
      ((intRange t.left t.right).foldl
        (fun (m : Arr Nat) (i : Int) => upd m i (st.tmp.get i)) st.mid_temp)
      t.left t.right h0 hlr (by omega)
  have hmid : st.tmp.get s' = mid := by
    rw [hs3, copy_foldl_get, if_pos ⟨hs1, hs2⟩]
  have hmem : ∃ p, t.left ≤ p ∧ p ≤ t.right ∧ st.tmp.get p = mid := ⟨s', hs1, hs2, hmid⟩
  obtain ⟨hp1, hp2, hp3⟩ :=
    pivotScan_spec st.tmp mid t.right ((t.right - t.left).toNat + 2) t.left
      (by omega) hmem
  obtain ⟨hq1, hq2, _, _, _, _, hq7⟩ :=
    selPartition_spec st.tmp mid t.left t.right h0 hlr hmem
  exact ⟨mt1, mid, hfm, hmem, hp1, hp2, hq1, hq2, hq7⟩

theorem claim_C10_witness :
    ((0 : Int) ≤ (⟨0, 1, 0, 4⟩ : CalcTask).left ∧
      (⟨0, 1, 0, 4⟩ : CalcTask).left ≤ (⟨0, 1, 0, 4⟩ : CalcTask).right) ∧
    ∃ mt2 mid, selPivot zeroCalcSt ⟨0, 1, 0, 4⟩ = some (mt2, mid) ∧
      (∃ p, (⟨0, 1, 0, 4⟩ : CalcTask).left ≤ p ∧ p ≤ (⟨0, 1, 0, 4⟩ : CalcTask).right ∧
        zeroCalcSt.tmp.get p = mid) ∧
      (⟨0, 1, 0, 4⟩ : CalcTask).left ≤ pivotScan
        (((⟨0, 1, 0, 4⟩ : CalcTask).right - (⟨0, 1, 0, 4⟩ : CalcTask).left).toNat + 2)
        zeroCalcSt.tmp mid (⟨0, 1, 0, 4⟩ : CalcTask).left
        (⟨0, 1, 0, 4⟩ : CalcTask).right ∧
      pivotScan
        (((⟨0, 1, 0, 4⟩ : CalcTask).right - (⟨0, 1, 0, 4⟩ : CalcTask).left).toNat + 2)
        zeroCalcSt.tmp mid (⟨0, 1, 0, 4⟩ : CalcTask).left
        (⟨0, 1, 0, 4⟩ : CalcTask).right ≤ (⟨0, 1, 0, 4⟩ : CalcTask).right ∧
      (⟨0, 1, 0, 4⟩ : CalcTask).left ≤ (selPartition zeroCalcSt.tmp mid
        (⟨0, 1, 0, 4⟩ : CalcTask).left (⟨0, 1, 0, 4⟩ : CalcTask).right).2 ∧
      (selPartition zeroCalcSt.tmp mid (⟨0, 1, 0, 4⟩ : CalcTask).left
        (⟨0, 1, 0, 4⟩ : CalcTask).right).2 ≤ (⟨0, 1, 0, 4⟩ : CalcTask).right ∧
      ∀ p, p < (⟨0, 1, 0, 4⟩ : CalcTask).left ∨ (⟨0, 1, 0, 4⟩ : CalcTask).right < p →
        (selPartition zeroCalcSt.tmp mid (⟨0, 1, 0, 4⟩ : CalcTask).left
          (⟨0, 1, 0, 4⟩ : CalcTask).right).1.get p = zeroCalcSt.tmp.get p :=
  ⟨⟨by decide, by decide⟩, claim_C10 zeroCalcSt ⟨0, 1, 0, 4⟩ (by decide) (by decide)⟩

end perf_counter_number_percentile

end SimplePerfCounter
